import Mathlib

/-!
Verification development for the DocumentQA agent-skills repository.

Each Python module the claims touch is shallowly embedded below:

* `src/skills/document_preprocessor/scripts/chunk_document.py`
  (`DocumentChunker.chunk_by_tokens`, `DocumentChunker.chunk_by_sentences`);
* `src/skills/query_retriever/scripts/semantic_search.py`
  (`SemanticSearch.index_documents`, `search`, `hybrid_search`);
* `src/skill_manager.py` (`load_skill`, `discover_skills`, `activate_skill`,
  `execute_workflow`);
* `src/agent_core.py` (`process_with_skills`, `_execute_skill_chain`).

External collaborators (the NLTK tokenizers, the sentence-transformer
embedding model, the Ollama generation endpoint, `json.dumps`, and the
regex/YAML frontmatter parse) are opaque to the repository's code and are
modelled as explicit functional parameters or pre-parsed inputs; everything
the repository itself computes is translated directly from the source.

Python's unbounded `int` is modelled by `Int`/`Nat`, `float` scores by `ℚ`,
`str` by `String` (or `List Char` where character-level reasoning is
needed), `dict` by association lists with Python's assignment semantics
(replace-in-place, append-if-new), and a `while` loop that may diverge by a
fuel-indexed function returning `Option`.
-/

namespace DocQA

/-! ### Python list slicing

`pySlice xs a b` is Python's `xs[a:b]` for integer bounds: negative indices
count from the end, and out-of-range bounds are clamped. -/

def pySliceIdx (n : Nat) (i : Int) : Nat :=
  (if i < 0 then max 0 ((n : Int) + i) else min i (n : Int)).toNat

def pySlice (xs : List α) (a b : Int) : List α :=
  (xs.take (pySliceIdx xs.length b)).drop (pySliceIdx xs.length a)

/-! ### `DocumentChunker.chunk_by_tokens`

The Python method tokenizes the text with `nltk.word_tokenize` (an external
collaborator) and then runs a `while` loop over the word list.  The
embedding therefore takes the word list as input.  The loop

```python
while start < len(words):
    end = start + self.chunk_size
    chunk_words = words[max(0, start - self.overlap):end]
    chunks.append({... 'start_word': max(0, start - self.overlap),
                   'end_word': end, 'chunk_id': len(chunks)})
    start = end - self.overlap
```

need not terminate (`start` does not increase when `overlap >= chunk_size`),
so it is embedded with fuel: `none` means the loop was still running when
the fuel ran out. `start` is an `Int` because Python's `start` can go
negative when `overlap > chunk_size`. -/

structure TokenChunk (α : Type) where
  text : List α
  start_word : Int
  end_word : Int
  chunk_id : Nat
deriving DecidableEq, Repr

def chunkTokensLoop (chunkSize overlap : Nat) (words : List α) :
    Nat → Int → List (TokenChunk α) → Option (List (TokenChunk α))
  | 0, start, chunks =>
    if start < (words.length : Int) then none else some chunks
  | fuel + 1, start, chunks =>
    if start < (words.length : Int) then
      let e : Int := start + chunkSize
      let sw : Int := max 0 (start - overlap)
      chunkTokensLoop chunkSize overlap words fuel (e - overlap)
        (chunks ++ [{ text := pySlice words sw e, start_word := sw,
                      end_word := e, chunk_id := chunks.length }])
    else some chunks

def chunk_by_tokens (chunkSize overlap : Nat) (words : List α) (fuel : Nat) :
    Option (List (TokenChunk α)) :=
  chunkTokensLoop chunkSize overlap words fuel 0 []

/-- `ceil (n / d)` on naturals (`d > 0`), the count the amended C1 states. -/
def ceilDivNat (n d : Nat) : Nat := (n + d - 1) / d

/-- The chunk count formula asserted by the spec sentence behind C1:
`ceil ((N - O) / (C - O))`. -/
def specTokenChunkCount (n c o : Nat) : Nat := ceilDivNat (n - o) (c - o)

/-! ### `DocumentChunker.chunk_by_sentences`

The Python method splits the text with `nltk.sent_tokenize` and counts each
sentence's tokens with `len(word_tokenize(sentence))`; both tokenizers are
external collaborators, so the embedding takes the sentence list and a
token-count function `tokLen` as inputs.  The loop body is translated
directly: when adding the next sentence would exceed the token budget and
the current chunk is nonempty, the chunk is flushed and the longest suffix
of it that fits the overlap budget (walking backward from the end, stopping
at the first sentence that does not fit) is carried over. -/

structure SentChunk where
  text : String
  start_sentence : Int
  end_sentence : Int
  chunk_id : Nat
deriving DecidableEq, Repr

def joinSpace (l : List String) : String := String.intercalate " " l

/-- The backward walk that collects `overlap_sentences`: the input is the
current chunk reversed, `ol` is `overlap_length`; returns the retained
sentences in original order together with the final `overlap_length`. -/
def overlapAux (tokLen : String → Nat) (overlap : Nat) :
    List String → Nat → List String × Nat
  | [], ol => ([], ol)
  | s :: rest, ol =>
    if ol + tokLen s ≤ overlap then
      let p := overlapAux tokLen overlap rest (ol + tokLen s)
      (p.1 ++ [s], p.2)
    else ([], ol)

def chunkSentLoop (tokLen : String → Nat) (chunkSize overlap : Nat) :
    List String → Nat → List String → Nat → List SentChunk → List SentChunk
  | [], i, cc, _cl, chunks =>
    if cc.isEmpty then chunks
    else chunks ++ [{ text := joinSpace cc,
                      start_sentence := (i : Int) - cc.length,
                      end_sentence := (i : Int) - 1,
                      chunk_id := chunks.length }]
  | s :: rest, i, cc, cl, chunks =>
    if chunkSize < cl + tokLen s ∧ cc ≠ [] then
      chunkSentLoop tokLen chunkSize overlap rest (i + 1)
        ((overlapAux tokLen overlap cc.reverse 0).1 ++ [s])
        ((overlapAux tokLen overlap cc.reverse 0).2 + tokLen s)
        (chunks ++ [{ text := joinSpace cc,
                      start_sentence := (i : Int) - cc.length,
                      end_sentence := (i : Int) - 1,
                      chunk_id := chunks.length }])
    else
      chunkSentLoop tokLen chunkSize overlap rest (i + 1) (cc ++ [s])
        (cl + tokLen s) chunks

def chunk_by_sentences (tokLen : String → Nat) (chunkSize overlap : Nat)
    (sentences : List String) : List SentChunk :=
  chunkSentLoop tokLen chunkSize overlap sentences 0 [] 0 []

/-- A chunk is sound for `sentences` when it is the space-join of the
contiguous run of whole sentences `a..b` that its recorded
`start_sentence`/`end_sentence` fields designate. -/
def GoodChunk (sentences : List String) (ch : SentChunk) : Prop :=
  ∃ a b : Nat, a ≤ b ∧ b < sentences.length ∧
    ch.start_sentence = (a : Int) ∧ ch.end_sentence = (b : Int) ∧
    ch.text = joinSpace ((sentences.take (b + 1)).drop a)

/-- Sentence index `j` appears in one of the chunks. -/
def CoveredSent (chunks : List SentChunk) (j : Nat) : Prop :=
  ∃ ch ∈ chunks, ch.start_sentence ≤ (j : Int) ∧ (j : Int) ≤ ch.end_sentence

/-! ### `SemanticSearch` (semantic_search.py)

The sentence-transformer model is an external collaborator: queries and
documents are encoded to normalized vectors and compared by dot product.
The embedding abstracts `np.dot(self.embeddings, query_embedding)` into a
similarity oracle `sim : String → String → ℚ` (query, document ↦ score);
float scores are modelled as rationals.  The state mirrors the object
fields: `documents` and `embeddings` (`none` until `index_documents` runs;
`some docs` records which documents were encoded).

The two ranking procedures sort differently.  `search` uses
`np.argsort(similarities)[::-1]`: NumPy's default sort on such arrays
(introsort, which runs insertion sort at these sizes) produces the
ascending order with exactly-tied scores in ascending index order, so the
`[::-1]` reversal lists ties in **descending** index order — modelled by
`argsortDesc`, the reverse of a stable ascending sort.  `hybrid_search`
uses Python's `sorted(..., reverse=True)` over the index-ordered score
pairs, which is stable, so ties stay in **ascending** index order —
modelled by `sortDescQ`, a stable descending sort.  The differing tie
orders are observable (duplicate documents give exactly equal scores) and
matter for C2. -/

/-- Python `str.split()` with no argument: split on whitespace runs,
dropping empty pieces (helper on the character list, `acc` holds the
current word reversed). -/
def wsSplitAux : List Char → List Char → List (List Char)
  | [], acc => if acc.isEmpty then [] else [acc.reverse]
  | c :: rest, acc =>
    if c.isWhitespace then
      if acc.isEmpty then wsSplitAux rest []
      else acc.reverse :: wsSplitAux rest []
    else wsSplitAux rest (c :: acc)

def pySplitWhitespace (s : String) : List String :=
  (wsSplitAux s.data []).map (fun l => String.mk l)

/-- Python `str.lower()` (ASCII range; the claims only hinge on
case-insensitive term comparison). -/
def asciiLower (c : Char) : Char :=
  if 'A' ≤ c ∧ c ≤ 'Z' then Char.ofNat (c.toNat + 32) else c

def pyLower (s : String) : String := String.mk (s.data.map asciiLower)

structure SResult where
  index : Nat
  text : String
  score : ℚ
  length_chars : Nat
  length_words : Nat
deriving DecidableEq, Repr

structure HResult where
  index : Nat
  text : String
  score : ℚ
  semantic_score : ℚ
  keyword_score : ℚ
deriving DecidableEq, Repr

/-- Descending order on (index, score) pairs: `a` may precede `b` when
`b.score ≤ a.score`. -/
def descBy (a b : Nat × ℚ) : Prop := b.2 ≤ a.2

instance : DecidableRel descBy := fun a b =>
  inferInstanceAs (Decidable (b.2 ≤ a.2))

instance : IsTotal (Nat × ℚ) descBy := ⟨fun a b => le_total b.2 a.2⟩

instance : IsTrans (Nat × ℚ) descBy := ⟨fun _ _ _ h1 h2 => le_trans h2 h1⟩

/-- Stable sort by score descending: Python's
`sorted(..., key=score, reverse=True)` (see the section comment). -/
def sortDescQ (l : List (Nat × ℚ)) : List (Nat × ℚ) :=
  l.insertionSort descBy

/-- Ascending order on (index, score) pairs: `a` may precede `b` when
`a.score ≤ b.score`. -/
def ascBy (a b : Nat × ℚ) : Prop := a.2 ≤ b.2

instance : DecidableRel ascBy := fun a b =>
  inferInstanceAs (Decidable (a.2 ≤ b.2))

instance : IsTotal (Nat × ℚ) ascBy := ⟨fun a b => le_total a.2 b.2⟩

instance : IsTrans (Nat × ℚ) ascBy := ⟨fun _ _ _ h1 h2 => le_trans h1 h2⟩

/-- `np.argsort(similarities)[::-1]`: the reverse of the stable ascending
sort, so exactly-tied scores come out in descending index order (see the
section comment). -/
def argsortDesc (l : List (Nat × ℚ)) : List (Nat × ℚ) :=
  (l.insertionSort ascBy).reverse

/-- Each document index paired with its similarity score. -/
def scorePairs (sims : List ℚ) : List (Nat × ℚ) :=
  (List.range sims.length).map (fun i => (i, sims.getD i 0))

structure SemanticSearchState where
  documents : List String
  embeddings : Option (List String)
deriving Repr

def initSemanticSearch : SemanticSearchState :=
  { documents := [], embeddings := none }

def index_documents (_st : SemanticSearchState) (documents : List String) :
    SemanticSearchState :=
  { documents := documents, embeddings := some documents }

/-- The Python default `threshold=0.3` (float literal modelled exactly as
the rational it denotes in the comparisons the claims quantify over). -/
def defaultThreshold : ℚ := 3 / 10

def search (sim : String → String → ℚ) (st : SemanticSearchState)
    (query : String) (top_k : Nat) (threshold : ℚ) :
    Except String (List SResult) :=
  match st.embeddings with
  | none => .error "No documents indexed. Call index_documents first."
  | some embDocs =>
    .ok (((argsortDesc (scorePairs (embDocs.map (sim query)))).take
        top_k).filterMap (fun p =>
      if threshold ≤ p.2 then
        some { index := p.1, text := st.documents.getD p.1 "",
               score := p.2,
               length_chars := (st.documents.getD p.1 "").length,
               length_words :=
                 (pySplitWhitespace (st.documents.getD p.1 "")).length }
      else none))

/-- `keyword_scores[i]`: the ratio of shared lowercase whitespace-delimited
terms to the number of query terms (`0` when the query has no terms). -/
def lexOverlap (query doc : String) : ℚ :=
  let queryTerms := (pySplitWhitespace (pyLower query)).dedup
  let docTerms := (pySplitWhitespace (pyLower doc)).dedup
  if queryTerms.isEmpty then 0
  else ((queryTerms.filter (· ∈ docTerms)).length : ℚ) / queryTerms.length

/-- Python `max(xs) if xs else 1`, as used for both score normalizers. -/
def pyMax1 (l : List ℚ) : ℚ :=
  match l with
  | [] => 1
  | h :: t => t.foldl max h

/-- `keyword_scores[i]` as a function of the document index. -/
def keywordScores (query : String) (documents : List String) : Nat → ℚ :=
  fun i => lexOverlap query (documents.getD i "")

/-- `combined_scores`: for every `i in range(n)`, the blend
`alpha * semantic + (1 - alpha) * keyword` of the max-normalized scores
(`semList` is the `semantic_scores` dict as an association list, `kw` the
`keyword_scores` dict). -/
def combinedScores (semList : List (Nat × ℚ)) (kw : Nat → ℚ) (n : Nat)
    (alpha : ℚ) : List (Nat × ℚ) :=
  (List.range n).map (fun i =>
    (i, alpha * (if 0 < pyMax1 (semList.map Prod.snd)
          then ((semList.lookup i).getD 0) / pyMax1 (semList.map Prod.snd)
          else 0)
      + (1 - alpha) * (if 0 < pyMax1 ((List.range n).map kw)
          then kw i / pyMax1 ((List.range n).map kw) else 0)))

/-- `hybrid_search`.  The internal `self.search(query, top_k=len(documents))`
call can raise (before indexing); the exception propagates out of
`hybrid_search`, modelled by mapping the remaining body over the `Except`. -/
def hybrid_search (sim : String → String → ℚ) (st : SemanticSearchState)
    (query : String) (documents : List String) (top_k : Nat) (alpha : ℚ) :
    Except String (List HResult) :=
  (search sim st query documents.length defaultThreshold).map
    (fun semanticResults =>
      let semList : List (Nat × ℚ) :=
        semanticResults.map (fun r => (r.index, r.score))
      ((sortDescQ (combinedScores semList (keywordScores query documents)
          documents.length alpha)).take top_k).filterMap (fun p =>
        if 0 < p.2 then
          some { index := p.1, text := documents.getD p.1 "", score := p.2,
                 semantic_score := (semList.lookup p.1).getD 0,
                 keyword_score := keywordScores query documents p.1 }
        else none))

/-- The concrete result list appearing in the C3 witness. -/
def c3WitnessResult : List SResult :=
  [{ index := 0, text := "a", score := 1, length_chars := 1,
     length_words := 1 }]

/-- A concrete similarity oracle, used only by witness theorems. -/
def constSim : String → String → ℚ := fun _ _ => 1

/-- A similarity oracle with pairwise distinct scores on the witness
documents. -/
def twoScoreSim : String → String → ℚ :=
  fun _ d => if d = "a" then 2 else 1

/-- The ranking C2 prescribes for `alpha = 0` (stated from the spec's
words, for comparison with `hybrid_search`): documents ordered purely by
the lexical overlap score, top-k, exact-zero scores excluded. -/
def specLexRanking (query : String) (documents : List String)
    (top_k : Nat) : List Nat :=
  ((((sortDescQ ((List.range documents.length).map
      (fun i => (i, lexOverlap query (documents.getD i ""))))).take
        top_k).filter (fun p => decide (0 < p.2))).map Prod.fst)

theorem ceilDivNat_zero (d : Nat) : ceilDivNat 0 d = 0 := by
  match d with
  | 0 => rfl
  | d + 1 =>
    show (0 + (d + 1) - 1) / (d + 1) = 0
    rw [Nat.div_eq_of_lt (by omega)]

theorem ceilDivNat_step (m d : Nat) (hd : 0 < d) (hm : 0 < m) :
    ceilDivNat m d = ceilDivNat (m - d) d + 1 := by
  unfold ceilDivNat
  rcases le_or_lt d m with h | h
  · have h1 : m + d - 1 = (m - 1) + d := by omega
    have h2 : m - d + d - 1 = m - 1 := by omega
    rw [h1, h2, Nat.add_div_right _ hd]
  · have h1 : m - d = 0 := by omega
    have h2 : m + d - 1 = (m - 1) + d := by omega
    rw [h1, h2, Nat.add_div_right _ hd, Nat.div_eq_of_lt (by omega),
      Nat.div_eq_of_lt (by omega)]

/-- Loop invariant lemma for `chunk_by_tokens` when `chunk_size > overlap`:
from a nonnegative start `s` with enough fuel, the loop terminates, appends
`ceil ((N - s) / (C - O))` further chunks, and those chunks cover every token
index in `[s, N)`. -/
theorem chunkTokensLoop_spec {α : Type} (C O : Nat) (words : List α)
    (hCO : O < C) :
    ∀ (fuel s : Nat) (chunks : List (TokenChunk α)),
      words.length ≤ s + fuel →
      ∃ rest,
        chunkTokensLoop C O words fuel (s : Int) chunks =
          some (chunks ++ rest) ∧
        rest.length = ceilDivNat (words.length - s) (C - O) ∧
        ∀ i : Nat, s ≤ i → i < words.length →
          ∃ ch ∈ rest, ch.start_word ≤ (i : Int) ∧ (i : Int) < ch.end_word := by
  intro fuel
  induction fuel with
  | zero =>
    intro s chunks hfuel
    have hs : words.length ≤ s := by omega
    refine ⟨[], ?_, ?_, ?_⟩
    · simp only [chunkTokensLoop]
      rw [if_neg (by exact_mod_cast Nat.not_lt.mpr hs)]
      simp
    · have h0 : words.length - s = 0 := by omega
      rw [h0, ceilDivNat_zero]
      rfl
    · intro i hi hi2
      omega
  | succ fuel ih =>
    intro s chunks hfuel
    by_cases hs : s < words.length
    · have hstep : ((s : Int) + C - O) = ((s + (C - O) : Nat) : Int) := by
        push_cast
        omega
      have hrec := ih (s + (C - O)) (chunks ++
        [{ text := pySlice words (max 0 ((s : Int) - O)) ((s : Int) + C),
           start_word := max 0 ((s : Int) - O), end_word := (s : Int) + C,
           chunk_id := chunks.length }]) (by omega)
      obtain ⟨rest, hrun, hlen, hcov⟩ := hrec
      refine ⟨{ text := pySlice words (max 0 ((s : Int) - O)) ((s : Int) + C),
                start_word := max 0 ((s : Int) - O), end_word := (s : Int) + C,
                chunk_id := chunks.length } :: rest, ?_, ?_, ?_⟩
      · simp only [chunkTokensLoop]
        rw [if_pos (by exact_mod_cast hs), hstep, hrun]
        simp
      · rw [List.length_cons, hlen,
          ceilDivNat_step (words.length - s) (C - O) (by omega) (by omega)]
        congr 2
        omega
      · intro i hi hi2
        by_cases hic : (i : Int) < (s : Int) + C
        · refine ⟨_, List.mem_cons_self _ _, ?_, ?_⟩
          · show max 0 ((s : Int) - O) ≤ (i : Int)
            omega
          · exact hic
        · have hnext : s + (C - O) ≤ i := by omega
          obtain ⟨ch, hch, h1, h2⟩ := hcov i hnext hi2
          exact ⟨ch, List.mem_cons_of_mem _ hch, h1, h2⟩
    · refine ⟨[], ?_, ?_, ?_⟩
      · simp only [chunkTokensLoop]
        rw [if_neg (by exact_mod_cast Nat.not_lt.mpr (by omega))]
        simp
      · have h0 : words.length - s = 0 := by omega
        rw [h0, ceilDivNat_zero]
        rfl
      · intro i hi hi2
        omega

/-- When `overlap ≥ chunk_size` and the word list is nonempty, `start`
never increases, so the loop never exits: every fuel value is exhausted. -/
theorem chunkTokensLoop_diverges {α : Type} (C O : Nat) (words : List α)
    (hCO : C ≤ O) (hw : words ≠ []) :
    ∀ (fuel : Nat) (s : Int) (chunks : List (TokenChunk α)),
      s ≤ 0 → chunkTokensLoop C O words fuel s chunks = none := by
  have hlen : 0 < words.length := List.length_pos.mpr hw
  intro fuel
  induction fuel with
  | zero =>
    intro s chunks hs
    simp only [chunkTokensLoop]
    rw [if_pos (by exact_mod_cast (by omega : s < (words.length : Int)))]
  | succ fuel ih =>
    intro s chunks hs
    simp only [chunkTokensLoop]
    rw [if_pos (by exact_mod_cast (by omega : s < (words.length : Int)))]
    exact ih _ _ (by omega)

theorem overlapAux_suffix (tokLen : String → Nat) (overlap : Nat) :
    ∀ (l : List String) (ol : Nat),
      ∃ m, m ≤ l.length ∧
        (overlapAux tokLen overlap l ol).1 = (l.take m).reverse := by
  intro l
  induction l with
  | nil => exact fun ol => ⟨0, by omega, rfl⟩
  | cons s rest ih =>
    intro ol
    by_cases h : ol + tokLen s ≤ overlap
    · obtain ⟨m, hm, hrec⟩ := ih (ol + tokLen s)
      refine ⟨m + 1, by simp; omega, ?_⟩
      simp only [overlapAux, if_pos h, List.take_succ_cons, List.reverse_cons]
      rw [hrec]
    · exact ⟨0, by omega, by simp [overlapAux, if_neg h]⟩

theorem coveredSent_append_left {chunks l : List SentChunk} {j : Nat}
    (h : CoveredSent chunks j) : CoveredSent (chunks ++ l) j := by
  obtain ⟨ch, hm, h2⟩ := h
  exact ⟨ch, List.mem_append_left _ hm, h2⟩

/-- Loop invariant for `chunk_by_sentences`: if the current chunk is the
contiguous run `sentences[k:i]` of already-seen sentences and the chunks so
far are sound and cover `[0, k)`, then the final chunk list is sound and
covers every sentence index. -/
theorem chunkSentLoop_spec (tokLen : String → Nat) (C O : Nat)
    (sentences : List String) :
    ∀ (rest : List String) (i k cl : Nat) (chunks : List SentChunk),
      sentences.drop i = rest → k ≤ i → i ≤ sentences.length →
      (∀ ch ∈ chunks, GoodChunk sentences ch) →
      (∀ j, j < k → CoveredSent chunks j) →
      (∀ ch ∈ chunkSentLoop tokLen C O rest i
          ((sentences.take i).drop k) cl chunks, GoodChunk sentences ch) ∧
      (∀ j, j < sentences.length →
        CoveredSent (chunkSentLoop tokLen C O rest i
          ((sentences.take i).drop k) cl chunks) j) := by
  intro rest
  induction rest with
  | nil =>
    intro i k cl chunks hdrop hki hil hgood hcov
    have hi : i = sentences.length := by
      have := List.drop_eq_nil_iff.mp hdrop
      omega
    have hcclen : ((sentences.take i).drop k).length = i - k := by
      simp only [List.length_drop, List.length_take]
      omega
    by_cases hemp : (sentences.take i).drop k = []
    · have hk : i ≤ k := by
        have := congrArg List.length hemp
        simp only [List.length_nil] at this
        omega
      simp only [chunkSentLoop, hemp, List.isEmpty_nil, if_pos]
      exact ⟨hgood, fun j hj => hcov j (by omega)⟩
    · have hki2 : k < i := by
        have := List.length_pos.mpr hemp
        omega
      have hne : ¬ ((sentences.take i).drop k).isEmpty = true := by
        simp [List.isEmpty_iff, hemp]
      simp only [chunkSentLoop, if_neg hne]
      have hGood : GoodChunk sentences
          { text := joinSpace ((sentences.take i).drop k),
            start_sentence := (i : Int) - ((sentences.take i).drop k).length,
            end_sentence := (i : Int) - 1,
            chunk_id := chunks.length } := by
        refine ⟨k, i - 1, by omega, by omega, ?_, ?_, ?_⟩
        · show (i : Int) - ((sentences.take i).drop k).length = (k : Nat)
          rw [hcclen]
          omega
        · show (i : Int) - 1 = ((i - 1 : Nat) : Int)
          omega
        · show joinSpace ((sentences.take i).drop k) =
            joinSpace ((sentences.take (i - 1 + 1)).drop k)
          rw [show i - 1 + 1 = i by omega]
      constructor
      · intro ch hch
        rcases List.mem_append.mp hch with h | h
        · exact hgood ch h
        · rw [List.mem_singleton.mp h]
          exact hGood
      · intro j hj
        by_cases hjk : j < k
        · exact coveredSent_append_left (hcov j hjk)
        · refine ⟨_, List.mem_append_right _ (List.mem_singleton_self _), ?_, ?_⟩
          · show (i : Int) - ((sentences.take i).drop k).length ≤ (j : Int)
            rw [hcclen]
            omega
          · show (j : Int) ≤ (i : Int) - 1
            omega
  | cons s rest ih =>
    intro i k cl chunks hdrop hki hil hgood hcov
    have hi : i < sentences.length := by
      by_contra hcon
      rw [List.drop_eq_nil_of_le (by omega)] at hdrop
      exact List.noConfusion hdrop
    have htake : sentences.take (i + 1) = sentences.take i ++ [s] := by
      rw [List.take_add sentences i 1, hdrop]
      rfl
    have hdrop2 : sentences.drop (i + 1) = rest := by
      have := List.drop_drop 1 i sentences
      rw [hdrop] at this
      exact this.symm
    have hcclen : ((sentences.take i).drop k).length = i - k := by
      simp only [List.length_drop, List.length_take]
      omega
    have htklen : (sentences.take i).length = i := by
      simp only [List.length_take]
      omega
    by_cases hflush : C < cl + tokLen s ∧ (sentences.take i).drop k ≠ []
    · have hki2 : k < i := by
        have := List.length_pos.mpr hflush.2
        omega
      obtain ⟨m, hm, hov⟩ :=
        overlapAux_suffix tokLen O ((sentences.take i).drop k).reverse 0
      rw [List.take_reverse, List.reverse_reverse] at hov
      rw [List.length_reverse] at hm
      set q := ((sentences.take i).drop k).length - m with hq
      have hqle : q ≤ i - k := by
        rw [hq, hcclen]
        omega
      have hccdrop : ((sentences.take i).drop k).drop q =
          (sentences.take i).drop (k + q) := by
        rw [List.drop_drop]
      have hnewcc : (overlapAux tokLen O
            ((sentences.take i).drop k).reverse 0).1 ++ [s] =
          (sentences.take (i + 1)).drop (k + q) := by
        rw [hov, hccdrop, htake,
          List.drop_append_of_le_length (by omega : k + q ≤ (sentences.take i).length)]
      have hGood : GoodChunk sentences
          { text := joinSpace ((sentences.take i).drop k),
            start_sentence := (i : Int) - ((sentences.take i).drop k).length,
            end_sentence := (i : Int) - 1,
            chunk_id := chunks.length } := by
        refine ⟨k, i - 1, by omega, by omega, ?_, ?_, ?_⟩
        · show (i : Int) - ((sentences.take i).drop k).length = (k : Nat)
          rw [hcclen]
          omega
        · show (i : Int) - 1 = ((i - 1 : Nat) : Int)
          omega
        · show joinSpace ((sentences.take i).drop k) =
            joinSpace ((sentences.take (i - 1 + 1)).drop k)
          rw [show i - 1 + 1 = i by omega]
      have hgood2 : ∀ ch ∈ chunks ++
          [{ text := joinSpace ((sentences.take i).drop k),
             start_sentence := (i : Int) - ((sentences.take i).drop k).length,
             end_sentence := (i : Int) - 1,
             chunk_id := chunks.length }], GoodChunk sentences ch := by
        intro ch hch
        rcases List.mem_append.mp hch with h | h
        · exact hgood ch h
        · rw [List.mem_singleton.mp h]
          exact hGood
      have hcov2 : ∀ j, j < k + q → CoveredSent (chunks ++
          [{ text := joinSpace ((sentences.take i).drop k),
             start_sentence := (i : Int) - ((sentences.take i).drop k).length,
             end_sentence := (i : Int) - 1,
             chunk_id := chunks.length }]) j := by
        intro j hj
        by_cases hjk : j < k
        · exact coveredSent_append_left (hcov j hjk)
        · refine ⟨_, List.mem_append_right _ (List.mem_singleton_self _), ?_, ?_⟩
          · show (i : Int) - ((sentences.take i).drop k).length ≤ (j : Int)
            rw [hcclen]
            omega
          · show (j : Int) ≤ (i : Int) - 1
            omega
      have := ih (i + 1) (k + q)
        ((overlapAux tokLen O ((sentences.take i).drop k).reverse 0).2 + tokLen s)
        (chunks ++
          [{ text := joinSpace ((sentences.take i).drop k),
             start_sentence := (i : Int) - ((sentences.take i).drop k).length,
             end_sentence := (i : Int) - 1,
             chunk_id := chunks.length }])
        hdrop2 (by omega) (by omega) hgood2 hcov2
      rw [← hnewcc] at this
      simpa only [chunkSentLoop, if_pos hflush] using this
    · have hnewcc : (sentences.take i).drop k ++ [s] =
          (sentences.take (i + 1)).drop k := by
        rw [htake,
          List.drop_append_of_le_length (by omega : k ≤ (sentences.take i).length)]
      have := ih (i + 1) k (cl + tokLen s) chunks hdrop2 (by omega) (by omega)
        hgood hcov
      rw [← hnewcc] at this
      simpa only [chunkSentLoop, if_neg hflush] using this

/-- C6.  `chunk_by_sentences` never splits a sentence across two chunks —
every produced chunk's text is the space-join of the contiguous run of
whole sentences designated by its recorded `start_sentence`/`end_sentence`
range — and every sentence of the input appears in at least one chunk. -/
theorem C6_sentence_chunking (tokLen : String → Nat) (C O : Nat)
    (sentences : List String) :
    (∀ ch ∈ chunk_by_sentences tokLen C O sentences,
      GoodChunk sentences ch) ∧
    (∀ j, j < sentences.length →
      CoveredSent (chunk_by_sentences tokLen C O sentences) j) := by
  have := chunkSentLoop_spec tokLen C O sentences sentences 0 0 0 []
    (by simp) (by omega) (by omega) (by simp) (by omega)
  simpa only [List.take_zero, List.drop_nil, List.drop_zero,
    chunk_by_sentences] using this

theorem C6_sentence_chunking_witness :
    GoodChunk ["ab", "cd", "ef"]
      { text := "ab", start_sentence := 0, end_sentence := 0, chunk_id := 0 } ∧
    CoveredSent (chunk_by_sentences String.length 3 1 ["ab", "cd", "ef"]) 0 :=
  ⟨(C6_sentence_chunking String.length 3 1 ["ab", "cd", "ef"]).1 _ (by decide),
   (C6_sentence_chunking String.length 3 1 ["ab", "cd", "ef"]).2 0 (by decide)⟩

/-- C1, counterexample.  Take the 3-token text with `chunk_size = 3` and
`overlap = 1` (so `C > O`).  The spec's formula `ceil ((N-O)/(C-O))` predicts
1 chunk, but the loop runs for `start = 0` and `start = 2`, producing 2
chunks: the claimed count is wrong. -/
theorem C1_token_count_counterexample :
    (1 : Nat) < 3 ∧
    (chunk_by_tokens 3 1 ["a", "b", "c"] 4).map List.length = some 2 ∧
    specTokenChunkCount 3 3 1 = 1 ∧ (2 : Nat) ≠ 1 := by
  decide

/-- C1, amended.  For every text of `N` tokens and `chunk_size C > overlap O`,
`chunk_by_tokens` terminates (fuel `N + 1` suffices) and produces exactly
`ceil (N / (C - O))` chunks — one per loop iteration, i.e. one per start
index `0, C-O, 2(C-O), …` below `N` — and the union of the chunks' token
index ranges `[start_word, end_word)` covers every index in `[0, N)`. -/
theorem C1_token_window_amended {α : Type} (C O : Nat) (words : List α)
    (hCO : O < C) :
    ∃ chunks, chunk_by_tokens C O words (words.length + 1) = some chunks ∧
      chunks.length = ceilDivNat words.length (C - O) ∧
      ∀ i : Nat, i < words.length →
        ∃ ch ∈ chunks, ch.start_word ≤ (i : Int) ∧ (i : Int) < ch.end_word := by
  obtain ⟨rest, hrun, hlen, hcov⟩ :=
    chunkTokensLoop_spec C O words hCO (words.length + 1) 0 [] (by omega)
  refine ⟨rest, ?_, ?_, ?_⟩
  · unfold chunk_by_tokens
    rw [show ((0 : Nat) : Int) = (0 : Int) from rfl] at hrun
    rw [hrun]
    simp
  · rw [hlen]
    simp
  · intro i hi
    exact hcov i (Nat.zero_le i) hi

theorem C1_token_window_witness :
    ∃ chunks, chunk_by_tokens 3 1 ["a", "b", "c"] 4 = some chunks ∧
      chunks.length = ceilDivNat 3 (3 - 1) ∧
      ∀ i : Nat, i < 3 →
        ∃ ch ∈ chunks, ch.start_word ≤ (i : Int) ∧ (i : Int) < ch.end_word :=
  C1_token_window_amended 3 1 ["a", "b", "c"] (by decide)

/-- C10.  `chunk_by_tokens` terminates (some fuel makes the loop finish)
exactly when `chunk_size > overlap` or the text tokenizes to zero words;
when `overlap ≥ chunk_size` and the word list is nonempty, the loop's start
index never increases (`start' = start + chunk_size - overlap ≤ start`), so
no amount of fuel completes the loop. -/
theorem C10_token_chunking_termination {α : Type} (C O : Nat)
    (words : List α) :
    (∃ fuel chunks, chunk_by_tokens C O words fuel = some chunks) ↔
      (O < C ∨ words = []) := by
  constructor
  · intro h
    by_contra hneg
    push_neg at hneg
    obtain ⟨hCO, hw⟩ := hneg
    obtain ⟨fuel, chunks, hrun⟩ := h
    rw [chunk_by_tokens,
      chunkTokensLoop_diverges C O words (by omega) hw fuel 0 [] le_rfl] at hrun
    exact Option.noConfusion hrun
  · intro h
    rcases h with hCO | hw
    · obtain ⟨rest, hrun, -, -⟩ :=
        chunkTokensLoop_spec C O words hCO (words.length + 1) 0 [] (by omega)
      exact ⟨words.length + 1, rest, by
        unfold chunk_by_tokens
        rw [show ((0 : Nat) : Int) = (0 : Int) from rfl] at hrun
        rw [hrun]
        simp⟩
    · subst hw
      exact ⟨0, [], rfl⟩

/-! ### `SkillManager` (skill_manager.py)

`load_skill` runs an external parsing pipeline (the `re.match` frontmatter
regex and `yaml.safe_load`); a `SkillFile` is a skill directory's
`SKILL.md` as seen after that pipeline: `frontmatter` is `none` when the
delimited header block is absent (the raised `ValueError` is caught), and
otherwise the parsed key-value mapping (YAML scalar values modelled as
strings), `body` is the text after the block, `raw` the full file text.
`discover_skills` iterates the skill directories in OS order; the embedding
takes that ordered list (restricted, as in the source, to directories that
contain a `SKILL.md`).  The Ollama client and `json.dumps` are opaque
collaborators `gen` and `jd`; `gen` returning `Except.error` models a
raised exception. -/

structure SkillMeta where
  name : String
  description : String
  license : Option String
  compatibility : Option String
  metadataVal : Option String
  allowed_tools : Option (List String)
  path : String
deriving DecidableEq, Repr

structure SkillFile where
  dir : String
  frontmatter : Option (List (String × String))
  body : String
  raw : String
deriving DecidableEq, Repr

structure SkillData where
  metadata : SkillMeta
  frontmatter : List (String × String)
  body : String
  full_content : String
deriving DecidableEq, Repr

/-- `load_skill`: `none` when parsing fails — no frontmatter block, or a
missing required `name`/`description` key (both `ValueError`s are caught
and turn into `return None`). -/
def load_skill (f : SkillFile) : Option SkillData :=
  match f.frontmatter with
  | none => none
  | some fm =>
    match fm.lookup "name", fm.lookup "description" with
    | some nm, some desc =>
      some { metadata :=
               { name := nm, description := desc,
                 license := fm.lookup "license",
                 compatibility := fm.lookup "compatibility",
                 metadataVal := fm.lookup "metadata",
                 allowed_tools :=
                   match fm.lookup "allowed_tools" with
                   | some v =>
                     if v = "" then none else some (pySplitWhitespace v)
                   | none => none,
                 path := f.dir },
             frontmatter := fm, body := f.body, full_content := f.raw }
    | _, _ => none

/-- Python dict assignment `d[k] = v`: replace in place, else append. -/
def pyDictInsert {α : Type} (k : String) (v : α) :
    List (String × α) → List (String × α)
  | [] => [(k, v)]
  | (k2, v2) :: rest =>
    if k2 = k then (k2, v) :: rest else (k2, v2) :: pyDictInsert k v rest

/-- `discover_skills`: load each directory's skill, store successes under
their declared name (`self.skills[name] = skill_data`, so a duplicate name
overwrites the earlier entry), skip failures and continue. -/
def discover_skills (dirs : List SkillFile) :
    List (String × SkillData) :=
  dirs.foldl (fun reg f =>
    match load_skill f with
    | some d => pyDictInsert d.metadata.name d reg
    | none => reg) []

/-- The registry entry C7 prescribes (stated from the spec's words): the
data of the last successfully-loaded directory declaring name `nm`. -/
def specLastLoaded (dirs : List SkillFile) (nm : String) :
    Option SkillData :=
  (dirs.filterMap load_skill).reverse.find?
    (fun d => d.metadata.name == nm)

def sentinelNotFound (skill_name : String) : String :=
  "Skill \x27" ++ skill_name ++ "\x27 not found."

/-- The prompt `activate_skill` renders (`jd` is `json.dumps ... indent=2`). -/
def skillPrompt (jd : List (String × String) → String) (skill_name : String)
    (sd : SkillData) (context : List (String × String)) : String :=
  "You are executing the skill: " ++ skill_name ++
    "\n\nSKILL INSTRUCTIONS:\n" ++ sd.body ++ "\n\nCONTEXT DATA:\n" ++
    jd context ++
    "\n\nTASK: Based on the skill instructions above, process the context data and provide the result.\n        \nRESULT:"

/-- `activate_skill`: the textual result paired with the number of
generation calls issued (0 on the unknown-name early return, 1 otherwise;
a generation exception is caught and stringified). -/
def activate_skill (gen : String → Except String String)
    (jd : List (String × String) → String)
    (reg : List (String × SkillData)) (skill_name : String)
    (context : List (String × String)) : String × Nat :=
  match reg.lookup skill_name with
  | none => (sentinelNotFound skill_name, 0)
  | some sd =>
    match gen (skillPrompt jd skill_name sd context) with
    | .ok resp => (resp, 1)
    | .error e => ("Error executing skill: " ++ e, 1)

/-- The key `f"step_{i+1}_{skill_name}"` written by workflow step `i`
(0-based). -/
def stepKey (i : Nat) (skill_name : String) : String :=
  "step_" ++ toString (i + 1) ++ "_" ++ skill_name

def workflowLoop (gen : String → Except String String)
    (jd : List (String × String) → String)
    (reg : List (String × SkillData)) :
    List String → Nat → List (String × String) → List (String × String)
  | [], _, context => context
  | skill_name :: rest, i, context =>
    workflowLoop gen jd reg rest (i + 1)
      (pyDictInsert "previous_result"
        (activate_skill gen jd reg skill_name context).1
        (pyDictInsert (stepKey i skill_name)
          (activate_skill gen jd reg skill_name context).1 context))

/-- `execute_workflow`: runs the steps over `initial_context.copy()`; the
copy makes this a pure function of the initial context — the caller's
mapping is untouched. -/
def execute_workflow (gen : String → Except String String)
    (jd : List (String × String) → String)
    (reg : List (String × SkillData)) (workflow : List String)
    (initial_context : List (String × String)) : List (String × String) :=
  workflowLoop gen jd reg workflow 0 initial_context

/-! ### `DocumentQAAgent._execute_skill_chain` (agent_core.py)

The marker scan is character-level string work, so this part is embedded
over `List Char` (Python `str` values here are ASCII).  `splitSeq` is
Python `str.split(sep)` for a nonempty separator, `splitChar` the
single-character case, `pyStrip` is `str.strip()`. -/

/-- Index of the first occurrence of `sep` in `s`. -/
def findSeq (sep : List Char) : List Char → Option Nat
  | [] => none
  | c :: rest =>
    if sep.isPrefixOf (c :: rest) then some 0
    else (findSeq sep rest).map (· + 1)

def splitSeqF (sep : List Char) : Nat → List Char → List (List Char)
  | 0, s => [s]
  | fuel + 1, s =>
    match findSeq sep s with
    | none => [s]
    | some i => s.take i :: splitSeqF sep fuel (s.drop (i + sep.length))

/-- Python `str.split(sep)`, nonempty `sep`; each found occurrence consumes
at least one character, so fuel `|s| + 1` always suffices. -/
def splitSeq (sep s : List Char) : List (List Char) :=
  splitSeqF sep (s.length + 1) s

/-- Python `str.split(c)` for a single-character separator. -/
def splitChar (sep : Char) : List Char → List (List Char)
  | [] => [[]]
  | c :: rest =>
    if c = sep then [] :: splitChar sep rest
    else
      match splitChar sep rest with
      | [] => [[c]]
      | h :: t => (c :: h) :: t

def pyStrip (s : List Char) : List Char :=
  ((s.dropWhile Char.isWhitespace).reverse.dropWhile
    Char.isWhitespace).reverse

/-- The literal `'[USE_SKILL:'` marker. -/
def markerChars : List Char := "[USE_SKILL:".data

def containsSeq (sep s : List Char) : Bool := (findSeq sep s).isSome

/-- One line of the loop body: when the marker occurs in the line,
`line.split('[USE_SKILL:')[1].split(']')[0].strip()` (the `[1]` segment
exists whenever the marker occurs, so the fallback arm is unreachable). -/
def extractLine (line : List Char) : Option (List Char) :=
  if containsSeq markerChars line then
    match splitSeq markerChars line with
    | _ :: seg :: _ => some (pyStrip ((splitChar ']' seg).headD []))
    | _ => none
  else none

/-- The `skill_requests` list `_execute_skill_chain` collects: one name per
marker-containing line of the response. -/
def parseSkillRequests (resp : List Char) : List (List Char) :=
  (splitChar '\n' resp).filterMap extractLine

/-- Observable trace of `_execute_skill_chain`: the skill names activated
in order (one `activate_skill` call per request) and the number of
synthesis generation calls (1 after a nonempty request list, else the
response is returned unchanged). -/
def chainTrace (resp : List Char) : List (List Char) × Nat :=
  if parseSkillRequests resp = [] then ([], 0)
  else (parseSkillRequests resp, 1)

/-- Observable trace of `process_with_skills` after the initial agent
response `resp`: skills run only when the literal marker occurs in the
response. -/
def processTrace (resp : List Char) : List (List Char) × Nat :=
  if containsSeq markerChars resp then chainTrace resp else ([], 0)

/-- `'\n'.join(lines)` — used to build response texts in the theorems. -/
def intercalateChar (c : Char) : List (List Char) → List Char
  | [] => []
  | [l] => l
  | l :: rest => l ++ c :: intercalateChar c rest

/-- A response line carrying exactly one marker: `[USE_SKILL:<name>]`. -/
def mkMarkerLine (n : List Char) : List Char := markerChars ++ n ++ [']']

/-- Concrete oracles and skill files used only by witness theorems. -/
def okGen : String → Except String String := fun _ => Except.ok "done"

def emptyJson : List (String × String) → String := fun _ => ""

def skillFileAlpha : SkillFile :=
  { dir := "skills/alpha",
    frontmatter := some [("name", "alpha"), ("description", "First.")],
    body := "Do the alpha task.", raw := "raw-alpha" }

def skillFileBeta : SkillFile :=
  { dir := "skills/beta",
    frontmatter := some [("name", "beta"), ("description", "Second.")],
    body := "Do the beta task.", raw := "raw-beta" }

def skillFileNoFront : SkillFile :=
  { dir := "skills/broken", frontmatter := none,
    body := "", raw := "no frontmatter here" }


/-! ### Sorting lemmas for the retrieval claims -/

theorem sortDescQ_sorted (l : List (Nat × ℚ)) :
    (sortDescQ l).Sorted descBy :=
  List.sorted_insertionSort descBy l

theorem sortDescQ_perm (l : List (Nat × ℚ)) :
    List.Perm (sortDescQ l) l :=
  List.perm_insertionSort descBy l

theorem sortDescQ_length (l : List (Nat × ℚ)) :
    (sortDescQ l).length = l.length :=
  (sortDescQ_perm l).length_eq

theorem descBy_trans {a b c : Nat × ℚ} (h1 : descBy a b)
    (h2 : descBy b c) : descBy a c :=
  le_trans h2 h1

theorem argsortDesc_perm (l : List (Nat × ℚ)) :
    List.Perm (argsortDesc l) l :=
  (List.reverse_perm _).trans (List.perm_insertionSort ascBy l)

theorem argsortDesc_length (l : List (Nat × ℚ)) :
    (argsortDesc l).length = l.length :=
  (argsortDesc_perm l).length_eq

/-- The reverse of the ascending sort is sorted descending. -/
theorem argsortDesc_sorted (l : List (Nat × ℚ)) :
    (argsortDesc l).Sorted descBy := by
  show (List.Pairwise descBy (l.insertionSort ascBy).reverse)
  rw [List.pairwise_reverse]
  exact (List.sorted_insertionSort ascBy l).imp (fun h => h)

/-- A strictly-descending-sorted list is determined by its multiset of
elements: two sorted permutations of each other are equal. -/
theorem strict_sorted_perm_eq :
    ∀ (l1 l2 : List (Nat × ℚ)), List.Perm l1 l2 →
      l1.Pairwise (fun a b => b.2 < a.2) →
      l2.Pairwise (fun a b => b.2 < a.2) → l1 = l2 := by
  intro l1
  induction l1 with
  | nil =>
    intro l2 hperm h1 h2
    exact hperm.symm.eq_nil.symm
  | cons a t1 ih =>
    intro l2 hperm h1 h2
    match l2 with
    | [] => exact absurd hperm.eq_nil (List.cons_ne_nil a t1)
    | b :: t2 =>
      by_cases hab : a = b
      · subst hab
        rw [ih t2 hperm.cons_inv h1.of_cons h2.of_cons]
      · have hamem : a ∈ b :: t2 := hperm.subset (List.mem_cons_self a t1)
        have hat2 : a ∈ t2 := by
          rcases List.mem_cons.mp hamem with h | h
          · exact absurd h hab
          · exact h
        have hbmem : b ∈ a :: t1 :=
          hperm.symm.subset (List.mem_cons_self b t2)
        have hbt1 : b ∈ t1 := by
          rcases List.mem_cons.mp hbmem with h | h
          · exact absurd h.symm hab
          · exact h
        have hlt1 : b.2 < a.2 := List.rel_of_pairwise_cons h1 hbt1
        have hlt2 : a.2 < b.2 := List.rel_of_pairwise_cons h2 hat2
        exact absurd hlt1 (not_lt_of_lt hlt2)

/-- When no two scores are equal, a descending-sorted list is strictly
sorted. -/
theorem sorted_nodup_strict (l : List (Nat × ℚ)) (hs : l.Sorted descBy)
    (hnd : (l.map Prod.snd).Nodup) :
    l.Pairwise (fun a b => b.2 < a.2) := by
  have hne : l.Pairwise (fun a b => a.2 ≠ b.2) := by
    rw [List.Nodup, List.pairwise_map] at hnd
    exact hnd
  exact (hs.and hne).imp (fun h => lt_of_le_of_ne h.1 (Ne.symm h.2))

/-- With pairwise distinct scores, NumPy's reversed argsort and Python's
stable descending sort agree: there is only one descending order. -/
theorem argsortDesc_eq_sortDescQ (l : List (Nat × ℚ))
    (h : (l.map Prod.snd).Nodup) : argsortDesc l = sortDescQ l := by
  refine strict_sorted_perm_eq _ _
    ((argsortDesc_perm l).trans (sortDescQ_perm l).symm) ?_ ?_
  · refine sorted_nodup_strict _ (argsortDesc_sorted l) ?_
    exact (((argsortDesc_perm l).map Prod.snd).nodup_iff).mpr h
  · refine sorted_nodup_strict _ (sortDescQ_sorted l) ?_
    exact (((sortDescQ_perm l).map Prod.snd).nodup_iff).mpr h

theorem orderedInsert_of_forall {a : Nat × ℚ} :
    ∀ {m : List (Nat × ℚ)}, (∀ c ∈ m, descBy a c) →
      m.orderedInsert descBy a = a :: m
  | [], _ => rfl
  | b :: t, h =>
    List.orderedInsert_of_le descBy t (h b (List.mem_cons_self b t))

theorem filter_orderedInsert (p : Nat × ℚ → Bool) (a : Nat × ℚ) :
    ∀ (l : List (Nat × ℚ)), l.Sorted descBy →
      (l.orderedInsert descBy a).filter p =
        if p a then (l.filter p).orderedInsert descBy a else l.filter p := by
  intro l
  induction l with
  | nil =>
    intro _
    cases hpa : p a <;> simp [List.orderedInsert, List.filter, hpa]
  | cons b t ih =>
    intro hsort
    have hb : ∀ c ∈ t, descBy b c := List.rel_of_sorted_cons hsort
    have ht : t.Sorted descBy := hsort.of_cons
    by_cases hab : descBy a b
    · have hall : ∀ c ∈ (b :: t).filter p, descBy a c := by
        intro c hc
        rcases List.mem_cons.mp (List.mem_of_mem_filter hc) with h | h
        · exact h ▸ hab
        · exact descBy_trans hab (hb c h)
      rw [List.orderedInsert_of_le descBy t hab]
      cases hpa : p a with
      | true =>
        rw [List.filter_cons_of_pos hpa, if_pos rfl,
          orderedInsert_of_forall hall]
      | false =>
        rw [List.filter_cons_of_neg (by simp [hpa]), if_neg (by simp)]
    · have hins : (b :: t).orderedInsert descBy a =
          b :: t.orderedInsert descBy a := by
        simp only [List.orderedInsert, if_neg hab]
      rw [hins]
      cases hpb : p b with
      | true =>
        rw [List.filter_cons_of_pos hpb, List.filter_cons_of_pos hpb, ih ht]
        cases hpa : p a with
        | true =>
          rw [if_pos rfl, if_pos rfl]
          simp only [List.orderedInsert, if_neg hab]
        | false =>
          rw [if_neg (by simp), if_neg (by simp)]
      | false =>
        rw [List.filter_cons_of_neg (by simp [hpb]),
          List.filter_cons_of_neg (by simp [hpb]), ih ht]

theorem filter_sortDescQ (p : Nat × ℚ → Bool) (l : List (Nat × ℚ)) :
    (sortDescQ l).filter p = sortDescQ (l.filter p) := by
  induction l with
  | nil => rfl
  | cons a t ih =>
    show (List.orderedInsert descBy a (sortDescQ t)).filter p =
      sortDescQ ((a :: t).filter p)
    rw [filter_orderedInsert p a (sortDescQ t) (sortDescQ_sorted t), ih]
    cases hpa : p a with
    | true =>
      rw [if_pos rfl, List.filter_cons_of_pos hpa]
      rfl
    | false =>
      rw [if_neg (by simp), List.filter_cons_of_neg (by simp [hpa])]

theorem orderedInsert_map_snd (f : ℚ → ℚ)
    (hf : ∀ x y : ℚ, f x ≤ f y ↔ x ≤ y) (a : Nat × ℚ) :
    ∀ l : List (Nat × ℚ),
      (l.map (fun p => (p.1, f p.2))).orderedInsert descBy (a.1, f a.2) =
        (l.orderedInsert descBy a).map (fun p => (p.1, f p.2)) := by
  intro l
  induction l with
  | nil => rfl
  | cons b t ih =>
    by_cases hab : descBy a b
    · have hfab : descBy (a.1, f a.2) (b.1, f b.2) := (hf _ _).mpr hab
      simp only [List.map_cons, List.orderedInsert, if_pos hfab, if_pos hab]
    · have hfab : ¬ descBy (a.1, f a.2) (b.1, f b.2) :=
        fun h => hab ((hf _ _).mp h)
      simp only [List.map_cons, List.orderedInsert, if_neg hfab, if_neg hab]
      rw [ih]

theorem sortDescQ_map_snd (f : ℚ → ℚ)
    (hf : ∀ x y : ℚ, f x ≤ f y ↔ x ≤ y) (l : List (Nat × ℚ)) :
    sortDescQ (l.map (fun p => (p.1, f p.2))) =
      (sortDescQ l).map (fun p => (p.1, f p.2)) := by
  induction l with
  | nil => rfl
  | cons a t ih =>
    show List.orderedInsert descBy (a.1, f a.2)
        (sortDescQ (t.map (fun p => (p.1, f p.2)))) =
      (List.orderedInsert descBy a (sortDescQ t)).map (fun p => (p.1, f p.2))
    rw [ih, orderedInsert_map_snd f hf a (sortDescQ t)]

theorem take_filter_sorted (p : Nat × ℚ → Bool)
    (hp : ∀ a b, descBy a b → p b = true → p a = true) :
    ∀ (l : List (Nat × ℚ)), l.Sorted descBy → ∀ k,
      (l.take k).filter p = (l.filter p).take k := by
  intro l
  induction l with
  | nil =>
    intro _ k
    simp
  | cons b t ih =>
    intro hsort k
    have hb : ∀ c ∈ t, descBy b c := List.rel_of_sorted_cons hsort
    have ht := hsort.of_cons
    match k with
    | 0 => simp
    | k + 1 =>
      rw [List.take_succ_cons]
      cases hpb : p b with
      | true =>
        rw [List.filter_cons_of_pos hpb, List.filter_cons_of_pos hpb,
          List.take_succ_cons, ih ht k]
      | false =>
        rw [List.filter_cons_of_neg (by simp [hpb]),
          List.filter_cons_of_neg (by simp [hpb])]
        have hnone : ∀ c ∈ t, p c = false := by
          intro c hc
          cases hpc : p c with
          | true => exact absurd (hp b c (hb c hc) hpc) (by simp [hpb])
          | false => rfl
        rw [List.filter_eq_nil_iff.mpr (fun c hc => by
            simp [hnone c (List.mem_of_mem_take hc)]),
          List.filter_eq_nil_iff.mpr (fun c hc => by simp [hnone c hc])]
        simp

theorem filterMap_ite_eq_map_filter {β : Type} (c : Nat × ℚ → Prop)
    [DecidablePred c] (g : Nat × ℚ → β) (l : List (Nat × ℚ)) :
    l.filterMap (fun q => if c q then some (g q) else none) =
      (l.filter (fun q => decide (c q))).map g := by
  induction l with
  | nil => rfl
  | cons a t ih =>
    by_cases hca : c a
    · rw [show (a :: t).filter (fun q => decide (c q)) =
            a :: t.filter (fun q => decide (c q)) from
          List.filter_cons_of_pos (by simp [hca])]
      simp only [List.filterMap_cons, if_pos hca, ih, List.map_cons]
    · rw [show (a :: t).filter (fun q => decide (c q)) =
            t.filter (fun q => decide (c q)) from
          List.filter_cons_of_neg (by simp [hca])]
      simp only [List.filterMap_cons, if_neg hca, ih]

theorem le_foldl_max :
    ∀ (t : List ℚ) (a x : ℚ), (x = a ∨ x ∈ t) → x ≤ t.foldl max a := by
  intro t
  induction t with
  | nil =>
    rintro a x (rfl | h)
    · exact le_refl x
    · cases h
  | cons b t ih =>
    rintro a x h
    show x ≤ t.foldl max (max a b)
    rcases h with rfl | h
    · exact le_trans (le_max_left x b) (ih (max x b) (max x b) (Or.inl rfl))
    · rcases List.mem_cons.mp h with rfl | h
      · exact le_trans (le_max_right a x) (ih _ _ (Or.inl rfl))
      · exact ih (max a b) x (Or.inr h)

theorem pyMax1_le_of_mem {l : List ℚ} {x : ℚ} (h : x ∈ l) : x ≤ pyMax1 l := by
  match l with
  | [] => cases h
  | b :: t =>
    show x ≤ t.foldl max b
    rcases List.mem_cons.mp h with rfl | h
    · exact le_foldl_max t x x (Or.inl rfl)
    · exact le_foldl_max t b x (Or.inr h)

theorem lookup_eq_none_iff (l : List (Nat × ℚ)) (i : Nat) :
    l.lookup i = none ↔ i ∉ l.map Prod.fst := by
  induction l with
  | nil => simp
  | cons a t ih =>
    obtain ⟨k, v⟩ := a
    by_cases hk : i = k
    · subst hk
      rw [List.lookup_cons]
      simp
    · have hbeq : (i == k) = false := by simp [hk]
      rw [List.lookup_cons]
      simp only [hbeq, List.map_cons, List.mem_cons, ih]
      constructor
      · intro h hc
        rcases hc with hc | hc
        · exact hk hc
        · exact h hc
      · intro h hc
        exact h (Or.inr hc)

theorem lookup_eq_some_of_mem :
    ∀ (l : List (Nat × ℚ)) (i : Nat) (x : ℚ),
      (l.map Prod.fst).Nodup → (i, x) ∈ l → l.lookup i = some x := by
  intro l
  induction l with
  | nil =>
    intro i x _ hmem
    cases hmem
  | cons a t ih =>
    intro i x hnd hmem
    obtain ⟨k, v⟩ := a
    rw [List.map_cons, List.nodup_cons] at hnd
    rcases List.mem_cons.mp hmem with heq | hmem2
    · cases heq
      rw [List.lookup_cons]
      simp
    · have hk : (i == k) = false := by
        simp only [beq_eq_false_iff_ne, ne_eq]
        rintro rfl
        exact hnd.1 (List.mem_map.mpr ⟨(i, x), hmem2, rfl⟩)
      rw [List.lookup_cons]
      simp only [hk]
      exact ih i x hnd.2 hmem2


/-! ### `search` and `hybrid_search` unfolding equations -/

theorem search_ok (sim : String → String → ℚ) (docs : List String)
    (query : String) (t : Nat) (threshold : ℚ) :
    search sim (index_documents initSemanticSearch docs) query t threshold =
      Except.ok ((((argsortDesc (scorePairs (docs.map (sim query)))).take
          t).filter (fun p => decide (threshold ≤ p.2))).map
        (fun p => { index := p.1, text := docs.getD p.1 "", score := p.2,
                    length_chars := (docs.getD p.1 "").length,
                    length_words :=
                      (pySplitWhitespace (docs.getD p.1 "")).length })) := by
  show Except.ok _ = _
  rw [filterMap_ite_eq_map_filter]
  rfl

theorem search_error (sim : String → String → ℚ) (query : String)
    (t : Nat) (threshold : ℚ) :
    search sim initSemanticSearch query t threshold =
      Except.error "No documents indexed. Call index_documents first." := rfl

/-- C3.  `search` raises (returns the error branch) whenever it runs on the
initial, never-indexed state; after `index_documents`, every successful
result list has at most `top_k` entries, every entry's score meets the
threshold, and the scores are in descending order. -/
theorem C3_search_contract (sim : String → String → ℚ) (query : String)
    (top_k : Nat) (threshold : ℚ) :
    (∃ msg, search sim initSemanticSearch query top_k threshold =
        Except.error msg) ∧
    ∀ (docs : List String) (rs : List SResult),
      search sim (index_documents initSemanticSearch docs) query top_k
          threshold = Except.ok rs →
      rs.length ≤ top_k ∧ (∀ r ∈ rs, threshold ≤ r.score) ∧
      rs.Pairwise (fun a b => b.score ≤ a.score) := by
  constructor
  · exact ⟨_, search_error sim query top_k threshold⟩
  · intro docs rs hok
    rw [search_ok] at hok
    have hrs := (Except.ok.injEq _ _).mp hok
    subst hrs
    refine ⟨?_, ?_, ?_⟩
    · rw [List.length_map]
      exact le_trans (List.length_filter_le _ _) (by
        rw [List.length_take]
        omega)
    · intro r hr
      obtain ⟨p, hp, rfl⟩ := List.mem_map.mp hr
      have := (List.mem_filter.mp hp).2
      simpa using of_decide_eq_true this
    · rw [List.pairwise_map]
      have hsorted : ((argsortDesc (scorePairs (docs.map (sim query)))).take
          top_k).Pairwise descBy :=
        (argsortDesc_sorted _).sublist (List.take_sublist _ _)
      exact hsorted.sublist (List.filter_sublist _)

theorem C3_search_contract_witness :
    (∃ msg, search constSim initSemanticSearch "q" 1 0 =
        Except.error msg) ∧
    c3WitnessResult.length ≤ 1 ∧
    (∀ r ∈ c3WitnessResult, (0 : ℚ) ≤ r.score) ∧
    c3WitnessResult.Pairwise (fun a b => b.score ≤ a.score) :=
  ⟨(C3_search_contract constSim "q" 1 0).1,
   (C3_search_contract constSim "q" 1 0).2 ["a"] c3WitnessResult (by rfl)⟩


theorem except_map_ok {ε α β : Type} (f : α → β) (x : α) :
    Except.map f (Except.ok x : Except ε α) = Except.ok (f x) := rfl

theorem semList_eq (sim : String → String → ℚ) (docs : List String)
    (query : String) :
    ((((argsortDesc (scorePairs (docs.map (sim query)))).take
        docs.length).filter (fun p => decide (defaultThreshold ≤ p.2))).map
      (fun p => ({ index := p.1, text := docs.getD p.1 "", score := p.2,
                   length_chars := (docs.getD p.1 "").length,
                   length_words :=
                     (pySplitWhitespace (docs.getD p.1 "")).length } :
        SResult))).map (fun r => (r.index, r.score)) =
      (argsortDesc (scorePairs (docs.map (sim query)))).filter
        (fun p => decide (defaultThreshold ≤ p.2)) := by
  have hlen : (argsortDesc (scorePairs (docs.map (sim query)))).length =
      docs.length := by
    rw [argsortDesc_length]
    simp [scorePairs]
  rw [← hlen, List.take_length, List.map_map]
  exact (List.map_congr_left fun p _ => rfl).trans (List.map_id _)

theorem hybrid_ok (sim : String → String → ℚ) (docs : List String)
    (query : String) (k : Nat) (alpha : ℚ) :
    hybrid_search sim (index_documents initSemanticSearch docs) query docs
        k alpha =
      Except.ok ((((sortDescQ (combinedScores
          ((argsortDesc (scorePairs (docs.map (sim query)))).filter
            (fun p => decide (defaultThreshold ≤ p.2)))
          (keywordScores query docs) docs.length alpha)).take k).filter
          (fun p => decide ((0 : ℚ) < p.2))).map
        (fun p => ({ index := p.1, text := docs.getD p.1 "", score := p.2,
                     semantic_score :=
                       ((((argsortDesc (scorePairs (docs.map (sim query)))).filter
                         (fun q => decide (defaultThreshold ≤ q.2))).lookup
                           p.1).getD 0),
                     keyword_score := keywordScores query docs p.1 } :
          HResult))) := by
  unfold hybrid_search
  rw [search_ok sim docs query docs.length defaultThreshold, except_map_ok]
  refine congrArg Except.ok ?_
  dsimp only
  rw [semList_eq sim docs query, filterMap_ite_eq_map_filter]


theorem map_index_eq_map_fst {β : Type} (proj : β → Nat) (g : Nat × ℚ → β)
    (hg : ∀ p, proj (g p) = p.1) (l : List (Nat × ℚ)) :
    (l.map g).map proj = l.map Prod.fst := by
  rw [List.map_map]
  exact List.map_congr_left fun p _ => hg p

theorem c0_upward : ∀ a b : Nat × ℚ, descBy a b →
    (fun p : Nat × ℚ => decide ((0 : ℚ) < p.2)) b = true →
    (fun p : Nat × ℚ => decide ((0 : ℚ) < p.2)) a = true :=
  fun _ _ hab hb =>
    decide_eq_true (lt_of_lt_of_le (of_decide_eq_true hb) hab)

theorem cthr_upward (θ : ℚ) : ∀ a b : Nat × ℚ, descBy a b →
    (fun p : Nat × ℚ => decide (θ ≤ p.2)) b = true →
    (fun p : Nat × ℚ => decide (θ ≤ p.2)) a = true :=
  fun _ _ hab hb =>
    decide_eq_true (le_trans (of_decide_eq_true hb) hab)

theorem sortDescQ_map_div (M : ℚ) (hM : 0 < M) (l : List (Nat × ℚ)) :
    sortDescQ (l.map (fun p => (p.1, p.2 / M))) =
      (sortDescQ l).map (fun p => (p.1, p.2 / M)) :=
  sortDescQ_map_snd (fun x => x / M) (fun _ _ => div_le_div_iff_of_pos_right hM) l

theorem mem_scorePairs_iff (sims : List ℚ) (i : Nat) (x : ℚ) :
    ((i, x) ∈ scorePairs sims) ↔ i < sims.length ∧ x = sims.getD i 0 := by
  unfold scorePairs
  constructor
  · intro h
    obtain ⟨a, ha, heq⟩ := List.mem_map.mp h
    cases heq
    exact ⟨List.mem_range.mp ha, rfl⟩
  · rintro ⟨hi, rfl⟩
    exact List.mem_map.mpr ⟨i, List.mem_range.mpr hi, rfl⟩

theorem getD_range_map :
    ∀ l : List ℚ, (List.range l.length).map (fun i => l.getD i 0) = l := by
  intro l
  induction l with
  | nil => rfl
  | cons a t ih =>
    show (List.range (t.length + 1)).map _ = _
    rw [List.range_succ_eq_map, List.map_cons, List.map_map]
    refine congrArg₂ List.cons rfl ?_
    calc (List.range t.length).map
          ((fun i => (a :: t).getD i 0) ∘ Nat.succ)
        = (List.range t.length).map (fun i => t.getD i 0) :=
          List.map_congr_left fun i _ => rfl
      _ = t := ih

theorem scorePairs_map_snd (sims : List ℚ) :
    (scorePairs sims).map Prod.snd = sims := by
  unfold scorePairs
  rw [List.map_map]
  exact (List.map_congr_left fun i _ => rfl).trans (getD_range_map sims)

theorem sims_nodup_fst (sim : String → String → ℚ) (docs : List String)
    (query : String) :
    ((sortDescQ (scorePairs (docs.map (sim query)))).map Prod.fst).Nodup := by
  have hperm :
      List.Perm ((sortDescQ (scorePairs (docs.map (sim query)))).map Prod.fst)
        ((scorePairs (docs.map (sim query))).map Prod.fst) :=
    (sortDescQ_perm _).map Prod.fst
  have hbase : (scorePairs (docs.map (sim query))).map Prod.fst =
      List.range (docs.map (sim query)).length := by
    unfold scorePairs
    rw [List.map_map]
    exact (List.map_congr_left fun i _ => rfl).trans (List.map_id _)
  rw [hperm.nodup_iff, hbase]
  exact List.nodup_range _

theorem semLookup (sim : String → String → ℚ) (docs : List String)
    (query : String) (i : Nat) (hi : i < (docs.map (sim query)).length) :
    (((sortDescQ (scorePairs (docs.map (sim query)))).filter
        (fun p => decide (defaultThreshold ≤ p.2))).lookup i).getD 0 =
      (if defaultThreshold ≤ (docs.map (sim query)).getD i 0
        then (docs.map (sim query)).getD i 0 else 0) := by
  have hnodup : (((sortDescQ (scorePairs (docs.map (sim query)))).filter
      (fun p => decide (defaultThreshold ≤ p.2))).map Prod.fst).Nodup :=
    List.Nodup.sublist
      (List.Sublist.map Prod.fst (List.filter_sublist _))
      (sims_nodup_fst sim docs query)
  by_cases hτ : defaultThreshold ≤ (docs.map (sim query)).getD i 0
  · have hmem : (i, (docs.map (sim query)).getD i 0) ∈
        (sortDescQ (scorePairs (docs.map (sim query)))).filter
          (fun p => decide (defaultThreshold ≤ p.2)) := by
      refine List.mem_filter.mpr ⟨?_, by simpa using hτ⟩
      exact (sortDescQ_perm _).mem_iff.mpr
        ((mem_scorePairs_iff _ i _).mpr ⟨hi, rfl⟩)
    rw [lookup_eq_some_of_mem _ i _ hnodup hmem, if_pos hτ]
    rfl
  · have hnone : ((sortDescQ (scorePairs (docs.map (sim query)))).filter
        (fun p => decide (defaultThreshold ≤ p.2))).lookup i = none := by
      rw [lookup_eq_none_iff]
      intro hmemf
      obtain ⟨p, hp, hfst⟩ := List.mem_map.mp hmemf
      obtain ⟨i2, x⟩ := p
      obtain ⟨hpA, hpτ⟩ := List.mem_filter.mp hp
      have hchar := (mem_scorePairs_iff _ i2 x).mp
        ((sortDescQ_perm _).mem_iff.mp hpA)
      rcases hchar with ⟨-, rfl⟩
      have : i2 = i := hfst
      subst this
      exact hτ (by simpa using of_decide_eq_true hpτ)
    rw [hnone, if_neg hτ]
    rfl

theorem semMax_pos (sim : String → String → ℚ) (docs : List String)
    (query : String) :
    0 < pyMax1 (((sortDescQ (scorePairs (docs.map (sim query)))).filter
        (fun p => decide (defaultThreshold ≤ p.2))).map Prod.snd) := by
  rcases hSL : (sortDescQ (scorePairs (docs.map (sim query)))).filter
      (fun p => decide (defaultThreshold ≤ p.2)) with - | ⟨p, t⟩
  · rw [hSL]
    norm_num [pyMax1]
  · rw [hSL]
    have hpmem : p ∈ (sortDescQ (scorePairs (docs.map (sim query)))).filter
        (fun p => decide (defaultThreshold ≤ p.2)) := by
      rw [hSL]
      exact List.mem_cons_self p t
    have hpτ : defaultThreshold ≤ p.2 := by
      simpa using of_decide_eq_true (List.mem_filter.mp hpmem).2
    have hle : p.2 ≤ pyMax1 ((p :: t).map Prod.snd) :=
      pyMax1_le_of_mem (List.mem_map.mpr ⟨p, List.mem_cons_self p t, rfl⟩)
    have hτpos : (0 : ℚ) < defaultThreshold := by norm_num [defaultThreshold]
    linarith


theorem scorePairs_map_outer (sim : String → String → ℚ)
    (docs : List String) (φ : Nat × ℚ → Nat × ℚ) :
    (scorePairs (docs.map (sim query))).map φ =
      (List.range docs.length).map
        (fun i => φ (i, (docs.map (sim query)).getD i 0)) := by
  unfold scorePairs
  rw [List.map_map, List.length_map]
  rfl

theorem combined_alpha_one (sim : String → String → ℚ) (docs : List String)
    (query : String) :
    combinedScores ((sortDescQ (scorePairs (docs.map (sim query)))).filter
        (fun p => decide (defaultThreshold ≤ p.2)))
      (keywordScores query docs) docs.length 1 =
      (scorePairs (docs.map (sim query))).map (fun p =>
        (p.1, (if defaultThreshold ≤ p.2 then p.2 else 0) /
          pyMax1 (((sortDescQ (scorePairs (docs.map (sim query)))).filter
            (fun p => decide (defaultThreshold ≤ p.2))).map Prod.snd))) := by
  unfold combinedScores
  rw [scorePairs_map_outer sim docs]
  apply List.map_congr_left
  intro i hi
  have hilt : i < docs.length := List.mem_range.mp hi
  have hlook := semLookup sim docs query i
    (by rw [List.length_map]; omega)
  rw [if_pos (semMax_pos sim docs query), hlook]
  show (_, _) = (_, _)
  rw [Prod.mk.injEq]
  refine ⟨rfl, ?_⟩
  show 1 * _ + (1 - 1) * _ = _
  ring

theorem combined_filter_alpha_one (sim : String → String → ℚ)
    (docs : List String) (query : String) :
    (combinedScores ((sortDescQ (scorePairs (docs.map (sim query)))).filter
        (fun p => decide (defaultThreshold ≤ p.2)))
      (keywordScores query docs) docs.length 1).filter
        (fun p => decide ((0 : ℚ) < p.2)) =
      ((scorePairs (docs.map (sim query))).filter
        (fun p => decide (defaultThreshold ≤ p.2))).map (fun p =>
          (p.1, p.2 / pyMax1 (((sortDescQ (scorePairs
            (docs.map (sim query)))).filter
              (fun p => decide (defaultThreshold ≤ p.2))).map Prod.snd))) := by
  rw [combined_alpha_one, List.filter_map]
  have hfun : ((fun p : Nat × ℚ => decide ((0 : ℚ) < p.2)) ∘
      (fun p : Nat × ℚ => (p.1,
        (if defaultThreshold ≤ p.2 then p.2 else 0) /
          pyMax1 (((sortDescQ (scorePairs (docs.map (sim query)))).filter
            (fun p => decide (defaultThreshold ≤ p.2))).map Prod.snd)))) =
      (fun p : Nat × ℚ => decide (defaultThreshold ≤ p.2)) := by
    funext p
    simp only [Function.comp_apply]
    dsimp only
    rw [decide_eq_decide]
    constructor
    · intro h
      by_contra hτ
      rw [if_neg hτ, zero_div] at h
      exact lt_irrefl 0 h
    · intro hτ
      rw [if_pos hτ]
      exact div_pos (lt_of_lt_of_le (by norm_num [defaultThreshold]) hτ)
        (semMax_pos sim docs query)
  rw [hfun]
  apply List.map_congr_left
  intro p hp
  have hpτ : defaultThreshold ≤ p.2 := by
    simpa using of_decide_eq_true (List.mem_filter.mp hp).2
  rw [if_pos hpτ]

/-- With `alpha = 1.0` the blended ranking is the semantic ranking, provided
the similarity scores are pairwise distinct (exact ties are ordered
differently by the two sorts; see `C2_tie_order_counterexample`). -/
theorem hybrid_alpha_one (sim : String → String → ℚ) (docs : List String)
    (query : String) (k : Nat) (hdist : (docs.map (sim query)).Nodup) :
    (hybrid_search sim (index_documents initSemanticSearch docs) query docs
        k 1).map (List.map HResult.index) =
      (search sim (index_documents initSemanticSearch docs) query k
        defaultThreshold).map (List.map SResult.index) := by
  have hpair : ((scorePairs (docs.map (sim query))).map Prod.snd).Nodup := by
    rw [scorePairs_map_snd]
    exact hdist
  rw [hybrid_ok, search_ok, except_map_ok, except_map_ok,
    argsortDesc_eq_sortDescQ _ hpair]
  refine congrArg Except.ok ?_
  rw [map_index_eq_map_fst HResult.index _ (fun p => rfl),
    map_index_eq_map_fst SResult.index _ (fun p => rfl),
    take_filter_sorted _ c0_upward _ (sortDescQ_sorted _) k,
    take_filter_sorted _ (cthr_upward defaultThreshold) _
      (sortDescQ_sorted _) k,
    filter_sortDescQ (fun p => decide ((0 : ℚ) < p.2)) _,
    combined_filter_alpha_one sim docs query,
    sortDescQ_map_div _ (semMax_pos sim docs query),
    filter_sortDescQ (fun p => decide (defaultThreshold ≤ p.2)) _,
    ← List.map_take, List.map_map]
  exact List.map_congr_left fun p _ => rfl


theorem lexOverlap_nonneg (query doc : String) :
    0 ≤ lexOverlap query doc := by
  unfold lexOverlap
  dsimp only
  split
  · exact le_refl 0
  · positivity

theorem combined_alpha_zero (semList : List (Nat × ℚ)) (docs : List String)
    (query : String)
    (hK : 0 < pyMax1 ((List.range docs.length).map
      (keywordScores query docs))) :
    combinedScores semList
      (keywordScores query docs) docs.length 0 =
      ((List.range docs.length).map
          (fun i => (i, keywordScores query docs i))).map
        (fun p => (p.1, p.2 / pyMax1 ((List.range docs.length).map
          (keywordScores query docs)))) := by
  unfold combinedScores
  rw [List.map_map]
  apply List.map_congr_left
  intro i hi
  show (_, _) = (_, _)
  rw [Prod.mk.injEq]
  refine ⟨rfl, ?_⟩
  show 0 * _ + (1 - 0) * _ = _
  rw [if_pos hK]
  ring

theorem combined_alpha_zero_degenerate (semList : List (Nat × ℚ))
    (docs : List String) (query : String)
    (hK : ¬ 0 < pyMax1 ((List.range docs.length).map
      (keywordScores query docs))) :
    combinedScores semList
      (keywordScores query docs) docs.length 0 =
      (List.range docs.length).map (fun i => (i, (0 : ℚ))) := by
  unfold combinedScores
  apply List.map_congr_left
  intro i hi
  rw [Prod.mk.injEq]
  refine ⟨rfl, ?_⟩
  show 0 * _ + (1 - 0) * _ = _
  rw [if_neg hK]
  ring

/-- With `alpha = 0.0` the blended ranking is purely the lexical-overlap
ranking. -/
theorem hybrid_alpha_zero (sim : String → String → ℚ) (docs : List String)
    (query : String) (k : Nat) :
    (hybrid_search sim (index_documents initSemanticSearch docs) query docs
        k 0).map (List.map HResult.index) =
      Except.ok (specLexRanking query docs k) := by
  rw [hybrid_ok, except_map_ok]
  refine congrArg Except.ok ?_
  rw [map_index_eq_map_fst HResult.index _ (fun p => rfl)]
  show _ = (((sortDescQ ((List.range docs.length).map
      (fun i => (i, keywordScores query docs i)))).take k).filter
        (fun p => decide ((0 : ℚ) < p.2))).map Prod.fst
  by_cases hK : 0 < pyMax1 ((List.range docs.length).map
    (keywordScores query docs))
  · rw [take_filter_sorted _ c0_upward _ (sortDescQ_sorted _) k,
      take_filter_sorted _ c0_upward _ (sortDescQ_sorted _) k,
      filter_sortDescQ (fun p => decide ((0 : ℚ) < p.2)) _,
      filter_sortDescQ (fun p => decide ((0 : ℚ) < p.2)) _,
      combined_alpha_zero _ docs query hK, List.filter_map]
    have hfun : ((fun p : Nat × ℚ => decide ((0 : ℚ) < p.2)) ∘
        (fun p : Nat × ℚ => (p.1, p.2 / pyMax1 ((List.range docs.length).map
          (keywordScores query docs))))) =
        (fun p : Nat × ℚ => decide ((0 : ℚ) < p.2)) := by
      funext p
      simp only [Function.comp_apply]
      dsimp only
      rw [decide_eq_decide]
      exact div_pos_iff_of_pos_right hK
    rw [hfun, sortDescQ_map_div _ hK, ← List.map_take, List.map_map]
    exact List.map_congr_left fun p _ => rfl
  · have hmaxle : pyMax1 ((List.range docs.length).map
        (keywordScores query docs)) ≤ 0 := le_of_not_lt hK
    have hkw0 : ∀ i, i < docs.length → keywordScores query docs i = 0 := by
      intro i hi
      have hmem : keywordScores query docs i ∈
          (List.range docs.length).map (keywordScores query docs) :=
        List.mem_map.mpr ⟨i, List.mem_range.mpr hi, rfl⟩
      have h1 := pyMax1_le_of_mem hmem
      have h2 : 0 ≤ keywordScores query docs i := lexOverlap_nonneg query _
      linarith
    rw [combined_alpha_zero_degenerate _ docs query hK]
    have hL : (((sortDescQ ((List.range docs.length).map
        (fun i => (i, (0 : ℚ))))).take k).filter
          (fun p => decide ((0 : ℚ) < p.2))) = [] := by
      rw [List.filter_eq_nil_iff]
      intro p hp
      have hp2 : p ∈ (List.range docs.length).map
          (fun i => (i, (0 : ℚ))) :=
        (sortDescQ_perm _).mem_iff.mp (List.mem_of_mem_take hp)
      obtain ⟨i, -, rfl⟩ := List.mem_map.mp hp2
      simp
    have hR : (((sortDescQ ((List.range docs.length).map
        (fun i => (i, keywordScores query docs i)))).take k).filter
          (fun p => decide ((0 : ℚ) < p.2))) = [] := by
      rw [List.filter_eq_nil_iff]
      intro p hp
      have hp2 : p ∈ (List.range docs.length).map
          (fun i => (i, keywordScores query docs i)) :=
        (sortDescQ_perm _).mem_iff.mp (List.mem_of_mem_take hp)
      obtain ⟨i, hi, rfl⟩ := List.mem_map.mp hp2
      simp [hkw0 i (List.mem_range.mp hi)]
    rw [hL, hR]

/-- C2 counterexample.  On two duplicate documents every similarity score is
exactly the same, and the two rankings differ: `search`'s reversed argsort
lists the tie as indices `[1, 0]` (descending index order), while
`hybrid_search` with `alpha = 1` sorts the blended scores with Python's
stable `sorted(..., reverse=True)` and lists it as `[0, 1]` (ascending index
order), so "exactly the same order" fails. -/
theorem C2_tie_order_counterexample :
    (hybrid_search constSim (index_documents initSemanticSearch ["a", "a"])
        "a" ["a", "a"] 2 1).map (List.map HResult.index) =
      Except.ok [0, 1] ∧
    (search constSim (index_documents initSemanticSearch ["a", "a"]) "a" 2
        defaultThreshold).map (List.map SResult.index) =
      Except.ok [1, 0] ∧
    ([0, 1] : List Nat) ≠ [1, 0] := by
  have hτ1 : decide (defaultThreshold ≤ (1 : ℚ)) = true :=
    decide_eq_true (by norm_num [defaultThreshold])
  have hsort : argsortDesc (scorePairs (["a", "a"].map (constSim "a"))) =
      [(1, (1 : ℚ)), (0, 1)] := rfl
  have hSL : (argsortDesc (scorePairs
      (["a", "a"].map (constSim "a")))).filter
        (fun p => decide (defaultThreshold ≤ p.2)) =
      [(1, (1 : ℚ)), (0, 1)] := by
    rw [hsort]
    simp [List.filter_cons, hτ1]
  refine ⟨?_, ?_, by decide⟩
  · rw [hybrid_ok, except_map_ok]
    refine congrArg Except.ok ?_
    rw [hSL]
    have hc : combinedScores [(1, (1 : ℚ)), (0, 1)]
        (keywordScores "a" ["a", "a"]) (["a", "a"].length) 1 =
        [(0, (1 : ℚ)), (1, 1)] := by
      unfold combinedScores
      norm_num [pyMax1, List.range_succ, List.lookup]
      rfl
    rw [hc]
    rfl
  · rw [search_ok, except_map_ok]
    refine congrArg Except.ok ?_
    rw [hsort]
    simp [List.filter_cons, hτ1]

/-- C2 (amended).  With `alpha = 1.0`, `hybrid_search` ranks the documents
in exactly the same order as `search` (semantic similarity only, at the same
default threshold) whenever the documents' similarity scores are pairwise
distinct; exactly tied scores may be ordered differently, because `search`'s
reversed NumPy argsort lists ties in descending index order while
`hybrid_search`'s stable Python sort lists them in ascending index order.
With `alpha = 0.0` it ranks purely by the lexical overlap score (the ratio
of shared lowercase whitespace-delimited terms to the query term count), as
`specLexRanking` states from the spec's words. -/
theorem C2_hybrid_alpha_extremes_amended (sim : String → String → ℚ)
    (docs : List String) (query : String) (k : Nat) :
    ((docs.map (sim query)).Nodup →
      (hybrid_search sim (index_documents initSemanticSearch docs) query docs
          k 1).map (List.map HResult.index) =
        (search sim (index_documents initSemanticSearch docs) query k
          defaultThreshold).map (List.map SResult.index)) ∧
    (hybrid_search sim (index_documents initSemanticSearch docs) query docs
        k 0).map (List.map HResult.index) =
      Except.ok (specLexRanking query docs k) :=
  ⟨fun hdist => hybrid_alpha_one sim docs query k hdist,
   hybrid_alpha_zero sim docs query k⟩

theorem C2_hybrid_alpha_extremes_amended_witness :
    ((["a", "b"].map (twoScoreSim "q")).Nodup ∧
      (hybrid_search twoScoreSim (index_documents initSemanticSearch
          ["a", "b"]) "q" ["a", "b"] 2 1).map (List.map HResult.index) =
        (search twoScoreSim (index_documents initSemanticSearch ["a", "b"])
          "q" 2 defaultThreshold).map (List.map SResult.index)) ∧
    (hybrid_search twoScoreSim (index_documents initSemanticSearch
        ["a", "b"]) "q" ["a", "b"] 2 0).map (List.map HResult.index) =
      Except.ok (specLexRanking "q" ["a", "b"] 2) :=
  ⟨⟨by decide,
    (C2_hybrid_alpha_extremes_amended twoScoreSim ["a", "b"] "q" 2).1
      (by decide)⟩,
   (C2_hybrid_alpha_extremes_amended twoScoreSim ["a", "b"] "q" 2).2⟩


/-! ### Skill registry and workflow lemmas -/

theorem lookup_pyDictInsert {α : Type} (k : String) (v : α) :
    ∀ (l : List (String × α)) (j : String),
      (pyDictInsert k v l).lookup j =
        if j = k then some v else l.lookup j := by
  intro l
  induction l with
  | nil =>
    intro j
    by_cases hj : j = k
    · subst hj
      simp [pyDictInsert, List.lookup_cons]
    · have hb : (j == k) = false := beq_eq_false_iff_ne.mpr hj
      simp [pyDictInsert, List.lookup_cons, hb, hj]
  | cons a t ih =>
    intro j
    obtain ⟨k2, v2⟩ := a
    by_cases hk2 : k2 = k
    · subst hk2
      simp only [pyDictInsert, if_pos rfl]
      by_cases hj : j = k2
      · subst hj
        simp [List.lookup_cons]
      · have hb : (j == k2) = false := beq_eq_false_iff_ne.mpr hj
        simp [List.lookup_cons, hb, hj]
    · simp only [pyDictInsert, if_neg hk2]
      by_cases hj : j = k2
      · subst hj
        have hb : ¬ j = k := fun h => hk2 h
        simp [List.lookup_cons, hb]
      · have hb : (j == k2) = false := beq_eq_false_iff_ne.mpr hj
        simp [List.lookup_cons, hb, ih]

theorem keys_pyDictInsert {α : Type} (k : String) (v : α) :
    ∀ (l : List (String × α)),
      (pyDictInsert k v l).map Prod.fst =
        if k ∈ l.map Prod.fst then l.map Prod.fst
        else l.map Prod.fst ++ [k] := by
  intro l
  induction l with
  | nil => simp [pyDictInsert]
  | cons a t ih =>
    obtain ⟨k2, v2⟩ := a
    by_cases hk2 : k2 = k
    · subst hk2
      simp [pyDictInsert]
    · simp only [pyDictInsert, if_neg hk2, List.map_cons, ih]
      by_cases hmem : k ∈ t.map Prod.fst
      · rw [if_pos hmem, if_pos (by simp [hmem])]
      · rw [if_neg hmem, if_neg (by
          simp only [List.mem_cons]
          rintro (h | h)
          · exact hk2 h.symm
          · exact hmem h)]
        simp

theorem nodup_keys_pyDictInsert {α : Type} (k : String) (v : α)
    (l : List (String × α)) (h : (l.map Prod.fst).Nodup) :
    ((pyDictInsert k v l).map Prod.fst).Nodup := by
  rw [keys_pyDictInsert]
  by_cases hmem : k ∈ l.map Prod.fst
  · rw [if_pos hmem]
    exact h
  · rw [if_neg hmem]
    exact List.Nodup.append h (List.nodup_singleton k)
      (fun a ha hb => hmem ((List.mem_singleton.mp hb) ▸ ha))

theorem specLastLoaded_cons (f : SkillFile) (rest : List SkillFile)
    (nm : String) :
    specLastLoaded (f :: rest) nm =
      (specLastLoaded rest nm).or
        (match load_skill f with
         | some d => if d.metadata.name == nm then some d else none
         | none => none) := by
  unfold specLastLoaded
  cases hload : load_skill f with
  | none =>
    simp [List.filterMap_cons, hload, Option.or_none]
  | some d =>
    simp only [List.filterMap_cons, hload, List.reverse_cons,
      List.find?_append]
    cases hd : (d.metadata.name == nm) <;> simp [List.find?, hd]

theorem discover_foldl_lookup (dirs : List SkillFile) :
    ∀ (acc : List (String × SkillData)) (nm : String),
      (dirs.foldl (fun reg f => match load_skill f with
          | some d => pyDictInsert d.metadata.name d reg
          | none => reg) acc).lookup nm =
        (specLastLoaded dirs nm).or (acc.lookup nm) := by
  induction dirs with
  | nil =>
    intro acc nm
    simp [specLastLoaded]
  | cons f rest ih =>
    intro acc nm
    rw [List.foldl_cons, specLastLoaded_cons]
    cases hload : load_skill f with
    | none =>
      simp only [hload]
      rw [ih, Option.or_none]
    | some d =>
      simp only [hload]
      rw [ih, lookup_pyDictInsert]
      by_cases hnm : nm = d.metadata.name
      · subst hnm
        rw [if_pos rfl, show (d.metadata.name == d.metadata.name) = true
          from beq_self_eq_true _]
        cases specLastLoaded rest d.metadata.name <;> simp [Option.or]
      · rw [if_neg hnm, show (d.metadata.name == nm) = false from
          beq_eq_false_iff_ne.mpr (fun h => hnm h.symm)]
        cases specLastLoaded rest nm <;> simp [Option.or]

theorem discover_nodup (dirs : List SkillFile) :
    ∀ (acc : List (String × SkillData)), (acc.map Prod.fst).Nodup →
      ((dirs.foldl (fun reg f => match load_skill f with
          | some d => pyDictInsert d.metadata.name d reg
          | none => reg) acc).map Prod.fst).Nodup := by
  induction dirs with
  | nil =>
    intro acc h
    exact h
  | cons f rest ih =>
    intro acc h
    rw [List.foldl_cons]
    cases hload : load_skill f with
    | none =>
      simp only [hload]
      exact ih acc h
    | some d =>
      simp only [hload]
      exact ih _ (nodup_keys_pyDictInsert _ _ _ h)

/-- C7.  Discovery stores each successfully-loaded skill under its declared
name, overwriting earlier entries: looking a name up in the resulting
registry yields the data of the last directory (in processing order) that
loaded with that name, and the registry keys are unique. -/
theorem C7_duplicate_name_overwrites (dirs : List SkillFile) (nm : String) :
    (discover_skills dirs).lookup nm = specLastLoaded dirs nm ∧
    ((discover_skills dirs).map Prod.fst).Nodup := by
  constructor
  · rw [discover_skills, discover_foldl_lookup dirs [] nm]
    cases specLastLoaded dirs nm <;> simp [Option.or]
  · exact discover_nodup dirs [] (by simp)

/-- C8.  A skill directory whose metadata document lacks the frontmatter
block, or lacks a required `name`/`description` field, is skipped without
raising, and the remaining directories load exactly as if it were absent. -/
theorem C8_invalid_metadata_skipped (pre post : List SkillFile)
    (f : SkillFile)
    (h : f.frontmatter = none ∨ ∀ fm, f.frontmatter = some fm →
      (fm.lookup "name" = none ∨ fm.lookup "description" = none)) :
    discover_skills (pre ++ f :: post) = discover_skills (pre ++ post) := by
  have hload : load_skill f = none := by
    unfold load_skill
    rcases h with h | h
    · rw [h]
    · cases hfm : f.frontmatter with
      | none => rfl
      | some fm =>
        dsimp only
        rcases h fm hfm with h2 | h2
        · rw [h2]
        · rw [h2]
          cases hn : fm.lookup "name" <;> rfl
  unfold discover_skills
  rw [List.foldl_append, List.foldl_append, List.foldl_cons]
  simp only [hload]

theorem C8_invalid_metadata_skipped_witness :
    discover_skills ([skillFileAlpha] ++ skillFileNoFront ::
        [skillFileBeta]) =
      discover_skills ([skillFileAlpha] ++ [skillFileBeta]) :=
  C8_invalid_metadata_skipped [skillFileAlpha] [skillFileBeta]
    skillFileNoFront (Or.inl rfl)

/-- C9.  For a skill name absent from the registry, `activate_skill`
returns the fixed sentinel string (no exception in the embedding's total
function) and performs no generation call. -/
theorem C9_unknown_skill_sentinel (gen : String → Except String String)
    (jd : List (String × String) → String)
    (reg : List (String × SkillData)) (skill_name : String)
    (context : List (String × String))
    (h : reg.lookup skill_name = none) :
    activate_skill gen jd reg skill_name context =
      (sentinelNotFound skill_name, 0) := by
  unfold activate_skill
  rw [h]

theorem C9_unknown_skill_sentinel_witness :
    ([] : List (String × SkillData)).lookup "missing" = none ∧
    activate_skill okGen emptyJson [] "missing" [] =
      (sentinelNotFound "missing", 0) :=
  ⟨rfl, C9_unknown_skill_sentinel okGen emptyJson [] "missing" [] rfl⟩


theorem workflowLoop_frame (gen : String → Except String String)
    (jd : List (String × String) → String)
    (reg : List (String × SkillData)) :
    ∀ (wf : List String) (i : Nat) (ctx : List (String × String))
      (key : String), key ≠ "previous_result" →
      (∀ p ∈ wf.enum, key ≠ stepKey (i + p.1) p.2) →
      (workflowLoop gen jd reg wf i ctx).lookup key = ctx.lookup key := by
  intro wf
  induction wf with
  | nil =>
    intro i ctx key h1 h2
    rfl
  | cons nm rest ih =>
    intro i ctx key h1 h2
    have hstep : key ≠ stepKey i nm := by
      have := h2 (0, nm) (by simp [List.enum_cons])
      simpa using this
    have hrest : ∀ p ∈ rest.enum, key ≠ stepKey ((i + 1) + p.1) p.2 := by
      intro p hp
      have hmem : ((p.1 + 1, p.2)) ∈ (nm :: rest).enum := by
        rw [List.enum_cons]
        refine List.mem_cons_of_mem _ ?_
        rw [← List.map_fst_add_enum_eq_enumFrom rest 1]
        exact List.mem_map.mpr ⟨p, hp, rfl⟩
      have hne := h2 _ hmem
      rw [show i + 1 + p.1 = i + (p.1 + 1) from by omega]
      exact hne
    simp only [workflowLoop]
    rw [ih (i + 1) _ key h1 hrest, lookup_pyDictInsert, if_neg h1,
      lookup_pyDictInsert, if_neg hstep]

theorem workflowLoop_append (gen : String → Except String String)
    (jd : List (String × String) → String)
    (reg : List (String × SkillData)) :
    ∀ (l1 l2 : List String) (i : Nat) (ctx : List (String × String)),
      workflowLoop gen jd reg (l1 ++ l2) i ctx =
        workflowLoop gen jd reg l2 (i + l1.length)
          (workflowLoop gen jd reg l1 i ctx) := by
  intro l1
  induction l1 with
  | nil =>
    intro l2 i ctx
    simp [workflowLoop]
  | cons nm rest ih =>
    intro l2 i ctx
    simp only [List.cons_append, workflowLoop, List.length_cons]
    rw [List.append_eq, ih,
      show i + 1 + rest.length = i + (rest.length + 1) from by omega]

theorem execute_workflow_last (gen : String → Except String String)
    (jd : List (String × String) → String)
    (reg : List (String × SkillData)) (l : List String) (nm : String)
    (init : List (String × String)) :
    (execute_workflow gen jd reg (l ++ [nm]) init).lookup
        "previous_result" =
      some (activate_skill gen jd reg nm
        (execute_workflow gen jd reg l init)).1 := by
  unfold execute_workflow
  rw [workflowLoop_append]
  simp only [workflowLoop]
  rw [lookup_pyDictInsert, if_pos rfl]

/-- C5, counterexample.  In the two-step workflow `["a", "b"]` from the
empty initial context, step 1 stores its result under `previous_result`,
and step 2 — the loop resumed from the context step 1 produced —
overwrites that existing key with a different value: steps do not only
append new keys. -/
theorem C5_overwrite_counterexample :
    (execute_workflow okGen emptyJson [] ["a"] []).lookup
        "previous_result" = some (sentinelNotFound "a") ∧
    execute_workflow okGen emptyJson [] ["a", "b"] [] =
      workflowLoop okGen emptyJson [] ["b"] 1
        (execute_workflow okGen emptyJson [] ["a"] []) ∧
    (execute_workflow okGen emptyJson [] ["a", "b"] []).lookup
        "previous_result" = some (sentinelNotFound "b") ∧
    sentinelNotFound "a" ≠ sentinelNotFound "b" := by
  decide

/-- C5, amended.  Each workflow step writes its step-specific key
`step_{i+1}_{name}` and rewrites `previous_result` (so `previous_result`
is overwritten on every step after the first); every other key keeps the
value it has in the caller's `initial_context`, and the workflow operates
on a copy, so the embedding is a pure function of the initial context and
the caller's mapping itself is never mutated. -/
theorem C5_workflow_context_amended (gen : String → Except String String)
    (jd : List (String × String) → String)
    (reg : List (String × SkillData)) (workflow : List String)
    (initial_context : List (String × String)) :
    (∀ key : String, key ≠ "previous_result" →
      (∀ p ∈ workflow.enum, key ≠ stepKey p.1 p.2) →
      (execute_workflow gen jd reg workflow initial_context).lookup key =
        initial_context.lookup key) ∧
    (∀ (l : List String) (nm : String), workflow = l ++ [nm] →
      (execute_workflow gen jd reg workflow initial_context).lookup
          "previous_result" =
        some (activate_skill gen jd reg nm
          (execute_workflow gen jd reg l initial_context)).1) := by
  constructor
  · intro key h1 h2
    refine workflowLoop_frame gen jd reg workflow 0 initial_context key h1 ?_
    intro p hp
    simpa using h2 p hp
  · rintro l nm rfl
    exact execute_workflow_last gen jd reg l nm initial_context

theorem C5_workflow_context_amended_witness :
    (execute_workflow okGen emptyJson [] ["a"]
        [("user_query", "q")]).lookup "user_query" = some "q" ∧
    (execute_workflow okGen emptyJson [] ["a"]
        [("user_query", "q")]).lookup "previous_result" =
      some (activate_skill okGen emptyJson [] "a"
        (execute_workflow okGen emptyJson [] []
          [("user_query", "q")])).1 :=
  ⟨(C5_workflow_context_amended okGen emptyJson [] ["a"]
      [("user_query", "q")]).1 "user_query" (by decide) (by decide),
   (C5_workflow_context_amended okGen emptyJson [] ["a"]
      [("user_query", "q")]).2 [] "a" rfl⟩


/-! ### Marker-parsing lemmas for C4 -/

theorem isPrefixOf_append_self :
    ∀ (l x : List Char), l.isPrefixOf (l ++ x) = true := by
  intro l x
  induction l with
  | nil => simp
  | cons a l ih => simp [List.isPrefixOf, ih]

theorem findSeq_append_self (sep x : List Char) (h : sep ≠ []) :
    findSeq sep (sep ++ x) = some 0 := by
  match sep with
  | c :: s =>
    show findSeq (c :: s) (c :: (s ++ x)) = some 0
    simp [findSeq, isPrefixOf_append_self (c :: s) x]

theorem splitSeqF_of_none (sep : List Char) :
    ∀ (fuel : Nat) (s : List Char), findSeq sep s = none →
      splitSeqF sep fuel s = [s] := by
  intro fuel s h
  match fuel with
  | 0 => rfl
  | fuel + 1 => simp [splitSeqF, h]

theorem splitSeq_marker_line (n : List Char)
    (hseq : findSeq markerChars (n ++ [']']) = none) :
    splitSeq markerChars (mkMarkerLine n) = [[], n ++ [']']] := by
  unfold splitSeq mkMarkerLine
  rw [List.append_assoc]
  rw [show splitSeqF markerChars
      ((markerChars ++ (n ++ [']'])).length + 1)
      (markerChars ++ (n ++ [']'])) =
    match findSeq markerChars (markerChars ++ (n ++ [']'])) with
    | none => [markerChars ++ (n ++ [']'])]
    | some i => (markerChars ++ (n ++ [']'])).take i ::
        splitSeqF markerChars ((markerChars ++ (n ++ [']'])).length)
          ((markerChars ++ (n ++ [']'])).drop (i + markerChars.length))
    from rfl]
  rw [findSeq_append_self markerChars (n ++ [']']) (by decide)]
  show (markerChars ++ (n ++ [']'])).take 0 ::
      splitSeqF markerChars ((markerChars ++ (n ++ [']'])).length)
        ((markerChars ++ (n ++ [']'])).drop (0 + markerChars.length)) = _
  rw [List.take_zero, Nat.zero_add, List.drop_left,
    splitSeqF_of_none markerChars _ _ hseq]

theorem splitChar_not_mem (c : Char) :
    ∀ (l : List Char), c ∉ l → splitChar c l = [l] := by
  intro l
  induction l with
  | nil =>
    intro _
    rfl
  | cons x rest ih =>
    intro h
    have hx : ¬ x = c := fun heq => h (by simp [heq])
    have hrec := ih (fun hm => h (List.mem_cons_of_mem _ hm))
    simp only [splitChar, if_neg hx, hrec]

theorem splitChar_append_cons (c : Char) :
    ∀ (l s : List Char), c ∉ l →
      splitChar c (l ++ c :: s) = l :: splitChar c s := by
  intro l
  induction l with
  | nil =>
    intro s _
    simp [splitChar]
  | cons x rest ih =>
    intro s h
    have hx : ¬ x = c := fun heq => h (by simp [heq])
    have hrec := ih s (fun hm => h (List.mem_cons_of_mem _ hm))
    simp only [List.cons_append, splitChar, if_neg hx, List.append_eq,
      hrec]

theorem extractLine_marker (n : List Char)
    (hseq : findSeq markerChars (n ++ [']']) = none) (hbr : ']' ∉ n) :
    extractLine (mkMarkerLine n) = some (pyStrip n) := by
  have hcont : containsSeq markerChars (mkMarkerLine n) = true := by
    unfold containsSeq mkMarkerLine
    rw [List.append_assoc, findSeq_append_self markerChars _ (by decide)]
    rfl
  unfold extractLine
  rw [if_pos hcont, splitSeq_marker_line n hseq]
  show some (pyStrip ((splitChar ']' (n ++ [']'])).headD [])) = _
  rw [show (n ++ [']'] : List Char) = n ++ ']' :: [] from rfl,
    splitChar_append_cons ']' n [] hbr]
  rfl

theorem splitChar_intercalate (c : Char) :
    ∀ (lines : List (List Char)), lines ≠ [] →
      (∀ l ∈ lines, c ∉ l) →
      splitChar c (intercalateChar c lines) = lines := by
  intro lines
  induction lines with
  | nil =>
    intro h _
    exact absurd rfl h
  | cons l rest ih =>
    intro _ hmem
    cases rest with
    | nil =>
      show splitChar c (intercalateChar c [l]) = [l]
      rw [show intercalateChar c [l] = l from rfl]
      exact splitChar_not_mem c l (hmem l (List.mem_cons_self _ _))
    | cons l2 rest2 =>
      show splitChar c (l ++ c :: intercalateChar c (l2 :: rest2)) =
        l :: l2 :: rest2
      rw [splitChar_append_cons c l _ (hmem l (List.mem_cons_self _ _)),
        ih (by simp) (fun x hx => hmem x (List.mem_cons_of_mem _ hx))]

theorem filterMap_extract_markers :
    ∀ (names : List (List Char)),
      (∀ n ∈ names, findSeq markerChars (n ++ [']']) = none ∧
        ']' ∉ n) →
      (names.map mkMarkerLine).filterMap extractLine =
        names.map pyStrip := by
  intro names
  induction names with
  | nil =>
    intro _
    rfl
  | cons n rest ih =>
    intro h
    have hn := h n (List.mem_cons_self _ _)
    rw [List.map_cons, List.map_cons, List.filterMap_cons,
      extractLine_marker n hn.1 hn.2,
      ih (fun x hx => h x (List.mem_cons_of_mem _ hx))]

theorem newline_not_mem_mkMarkerLine (n : List Char) (h : '\n' ∉ n) :
    '\n' ∉ mkMarkerLine n := by
  unfold mkMarkerLine
  intro hm
  rcases List.mem_append.mp hm with hm2 | hm2
  · rcases List.mem_append.mp hm2 with hm3 | hm3
    · revert hm3
      decide
    · exact h hm3
  · revert hm2
    decide

/-- C4, counterexample.  The response
`"[USE_SKILL:extract] [USE_SKILL:summarize]"` carries two markers naming
`extract` and `summarize`, but the chain executes only one skill:
`line.split('[USE_SKILL:')[1].split(']')[0]` extracts at most one name per
line, so the claim that every marker's name is extracted fails. -/
theorem C4_single_line_counterexample :
    containsSeq markerChars
      "[USE_SKILL:extract] [USE_SKILL:summarize]".data = true ∧
    containsSeq "[USE_SKILL:summarize]".data
      "[USE_SKILL:extract] [USE_SKILL:summarize]".data = true ∧
    processTrace "[USE_SKILL:extract] [USE_SKILL:summarize]".data =
      (["extract".data], 1) ∧
    ["extract".data] ≠ ["extract".data, "summarize".data] := by
  decide

/-- C4, amended.  The orchestrator extracts one skill name per
marker-carrying line — the name in that line's first marker, stripped —
in order of appearance with duplicates preserved.  In particular, for any
nonempty list of names placed one marker per line, the trace runs exactly
those skills in that order, followed by exactly one synthesis generation
call. -/
theorem C4_marker_extraction_amended (names : List (List Char))
    (hne : names ≠ [])
    (h : ∀ n ∈ names, findSeq markerChars (n ++ [']']) = none ∧
      ']' ∉ n ∧ '\n' ∉ n) :
    processTrace (intercalateChar '\n' (names.map mkMarkerLine)) =
      (names.map pyStrip, 1) := by
  have hmapne : names.map mkMarkerLine ≠ [] := by
    intro hmap
    exact hne (List.map_eq_nil_iff.mp hmap)
  have hparse : parseSkillRequests
      (intercalateChar '\n' (names.map mkMarkerLine)) =
      names.map pyStrip := by
    unfold parseSkillRequests
    rw [splitChar_intercalate '\n' (names.map mkMarkerLine) hmapne ?hnl]
    case hnl =>
      intro line hline
      obtain ⟨n, hn, rfl⟩ := List.mem_map.mp hline
      exact newline_not_mem_mkMarkerLine n (h n hn).2.2
    exact filterMap_extract_markers names
      (fun n hn => ⟨(h n hn).1, (h n hn).2.1⟩)
  have hcontains : containsSeq markerChars
      (intercalateChar '\n' (names.map mkMarkerLine)) = true := by
    match names, hne with
    | n0 :: rest, _ =>
      have hex : ∃ tail, intercalateChar '\n'
          ((n0 :: rest).map mkMarkerLine) = markerChars ++ tail := by
        rw [List.map_cons]
        cases hxs : rest.map mkMarkerLine with
        | nil =>
          exact ⟨n0 ++ [']'],
            by simp [intercalateChar, mkMarkerLine, List.append_assoc]⟩
        | cons y ys =>
          exact ⟨(n0 ++ [']']) ++ '\n' :: intercalateChar '\n' (y :: ys),
            by simp [intercalateChar, mkMarkerLine, List.append_assoc]⟩
      obtain ⟨tail, htail⟩ := hex
      rw [htail]
      unfold containsSeq
      rw [findSeq_append_self markerChars tail (by decide)]
      rfl
  have hreqne : names.map pyStrip ≠ [] := by
    intro hmap
    exact hne (List.map_eq_nil_iff.mp hmap)
  unfold processTrace
  rw [if_pos hcontains]
  unfold chainTrace
  rw [hparse, if_neg hreqne]

theorem C4_marker_extraction_amended_witness :
    processTrace (intercalateChar '\n'
      (["extract".data, "summarize".data].map mkMarkerLine)) =
      (["extract".data, "summarize".data].map pyStrip, 1) :=
  C4_marker_extraction_amended ["extract".data, "summarize".data]
    (by decide) (by decide)

end DocQA
